import Mathlib

set_option maxHeartbeats 1000000

namespace CR

/-- Text is the shallow embedding of a Python string: a list of characters. -/
abbrev Text := List Char

/-- The ASCII whitespace characters removed by Python `str.strip()` /
`str.rstrip()` and matched by the regex class `\s` (the inputs handled by
the tool are ASCII, so the Unicode extras of Python are irrelevant). -/
def pySpace (c : Char) : Bool :=
  c = ' ' || c = '\t' || c = '\n' || c = '\r' || c = '\x0b' || c = '\x0c'

/-- The regex class `\w` restricted to ASCII: letters, digits, underscore. -/
def isWordC (c : Char) : Bool := c.isAlphanum || c = '_'

/-- The regex class `\d`. -/
def isDigitC (c : Char) : Bool := c.isDigit

/-- The current-side marker token checked by the tool. -/
def lmTok : Text := ("<<<<<<< ").data

/-- The bare separator token checked by `has_merge_conflicts`. -/
def sep7 : Text := ("=======").data

/-- The separator context required by the block regex: a line that is exactly
seven equals signs. -/
def sepTok : Text := ("\n=======\n").data

/-- The incoming-side marker token checked by `has_merge_conflicts`. -/
def rm8 : Text := (">>>>>>> ").data

/-- The incoming-side marker context required by the block regex. -/
def rmTok : Text := ("\n>>>>>>> ").data

/-- The comment prefix skipped by the field extractor. -/
def slTok : Text := ("//").data

/-- Boolean prefix test on character lists. -/
def isPre : Text → Text → Bool
  | [], _ => true
  | _ :: _, [] => false
  | p :: ps, c :: cs => (p == c) && isPre ps cs

/-- Python's `pat in s` substring test. -/
def containsSub : Text → Text → Bool
  | [], pat => isPre pat []
  | s@(_ :: r), pat => isPre pat s || containsSub r pat

/-- Python `str.lstrip()`. -/
def pyLstrip (s : Text) : Text := s.dropWhile pySpace

/-- Python `str.rstrip()`. -/
def pyRstrip (s : Text) : Text := (s.reverse.dropWhile pySpace).reverse

/-- Python `str.strip()`. -/
def pyStrip (s : Text) : Text := pyRstrip (pyLstrip s)

/-- Python `content.split('\n')`. -/
def splitNL : Text → List Text
  | [] => [[]]
  | c :: r =>
    if c = '\n' then [] :: splitNL r
    else
      match splitNL r with
      | [] => [[c]]
      | h :: t => (c :: h) :: t

/-- Lexicographic comparison of texts by character code points, the order
used by Python `sorted` on strings. -/
def textLe : Text → Text → Bool
  | [], _ => true
  | _ :: _, [] => false
  | a :: as, b :: bs => if a < b then true else if b < a then false else textLe as bs

/-- `textLe` as a relation, so Mathlib's insertion-sort lemmas apply. -/
def textLeR (a b : Text) : Prop := textLe a b = true

instance : DecidableRel textLeR := fun a b =>
  inferInstanceAs (Decidable (textLe a b = true))

/-- Python `sorted` on a collection of strings, modelled as insertion sort by
the code-point order. -/
def sortT (l : List Text) : List Text := List.insertionSort textLeR l

/-- Value of a digit character. -/
def digitVal (c : Char) : Nat := c.toNat - 48

/-- Value of a string of digit characters, most significant first. -/
def parseDigits (ds : Text) : Nat := ds.foldl (fun a c => a * 10 + digitVal c) 0

/-- The digit characters. -/
def digitCh : Nat → Char
  | 0 => '0' | 1 => '1' | 2 => '2' | 3 => '3' | 4 => '4'
  | 5 => '5' | 6 => '6' | 7 => '7' | 8 => '8' | _ => '9'

/-- Decimal digits of `n`, most significant first, by fuel-bounded division. -/
def natToTextAux : Nat → Nat → Text
  | 0, _ => []
  | fuel + 1, n => if n = 0 then [] else natToTextAux fuel (n / 10) ++ [digitCh (n % 10)]

/-- Python `str(n)` for a natural number. -/
def natToText (n : Nat) : Text := if n = 0 then ['0'] else natToTextAux n n

/-- One `X+` regex step: the greedy maximal run of characters satisfying `p`
and the rest, or `none` when the run is empty. -/
def scanP (p : Char → Bool) (s : Text) : Option (Text × Text) :=
  if s.takeWhile p = [] then none
  else some (s.takeWhile p, s.drop (s.takeWhile p).length)

/-- `re.match(r'(\w+)\s+(\w+)\s*=\s*(\d+);', line)`: the proto field
declaration pattern of `extract_oneof_entries`.  All character classes in the
pattern are disjoint from their successors, so greedy maximal munch is exact
and no backtracking can succeed where this scanner fails. -/
def matchFieldDecl (l : Text) : Option (Text × Text × Nat) :=
  match scanP isWordC l with
  | none => none
  | some (t, r1) =>
    match scanP pySpace r1 with
    | none => none
    | some (_, r2) =>
      match scanP isWordC r2 with
      | none => none
      | some (nm, r3) =>
        match r3.dropWhile pySpace with
        | [] => none
        | c4 :: r5 =>
          if c4 = '=' then
            match scanP isDigitC (r5.dropWhile pySpace) with
            | none => none
            | some (ds, r6) =>
              match r6 with
              | [] => none
              | c6 :: _ => if c6 = ';' then some (t, nm, parseDigits ds) else none
          else none

/-- Insertion-ordered dictionary update, the semantics of `d[k] = v` on a
Python dict: an existing key keeps its position, a new key is appended. -/
def updateA {β : Type} : List (Text × β) → Text → β → List (Text × β)
  | [], k, v => [(k, v)]
  | e :: rest, k, v => if e.1 = k then (k, v) :: rest else e :: updateA rest k v

/-- Dictionary lookup. -/
def lookupA {β : Type} : List (Text × β) → Text → Option β
  | [], _ => none
  | e :: rest, k => if e.1 = k then some e.2 else lookupA rest k

/-- Dictionary keys in insertion order. -/
def keysA {β : Type} (es : List (Text × β)) : List Text := es.map (·.1)

/-- One field entry: name mapped to (type, number). -/
abbrev FieldVal := Text × Nat

/-- One line of the `extract_oneof_entries` loop: strip, skip blank and
comment lines, record a matching field declaration and the running maximum. -/
def stepEntry (st : List (Text × FieldVal) × Nat) (line : Text) :
    List (Text × FieldVal) × Nat :=
  if pyStrip line = [] then st
  else if isPre slTok (pyStrip line) then st
  else
    match matchFieldDecl (pyStrip line) with
    | none => st
    | some (t, nm, k) => (updateA st.1 nm (t, k), Nat.max st.2 k)

/-- `MergeConflictResolver.extract_oneof_entries`: returns the dict of
field name to (type, number) and the maximum field number seen (0 if none). -/
def extractOneofEntries (content : Text) : List (Text × FieldVal) × Nat :=
  (splitNL content).foldl stepEntry ([], 0)

/-- Four-space indent used when emitting new declaration lines. -/
def ind4 : Text := ("    ").data

/-- The literal ` = ` of an emitted declaration line. -/
def eqSp : Text := (" = ").data

/-- The f-string `f"    {field_type} {field_name} = {next_number};"`. -/
def formatLine (t nm : Text) (n : Nat) : Text :=
  ind4 ++ t ++ ' ' :: nm ++ eqSp ++ natToText n ++ [';']

/-- The loop of `resolve_proto_conflict` that builds `additional_lines`:
one declaration line per current-only name, with consecutive numbers. -/
def additionalLines (curE : List (Text × FieldVal)) : List Text → Nat → List Text
  | [], _ => []
  | nm :: rest, n =>
    formatLine ((lookupA curE nm).getD ([], 0)).1 nm n :: additionalLines curE rest (n + 1)

/-- Python `'\n'.join`. -/
def joinNL : List Text → Text
  | [] => []
  | [l] => l
  | l :: ls => l ++ '\n' :: joinNL ls

/-- `set(current_entries.keys()) - set(incoming_entries.keys())`, listed in
current-side insertion order (the set is only ever sorted afterwards). -/
def currentOnlyNames (cur inc : Text) : List Text :=
  (keysA (extractOneofEntries cur).1).filter
    (fun k => (lookupA (extractOneofEntries inc).1 k).isNone)

/-- `sorted(current_only)`. -/
def sortedCurrentOnly (cur inc : Text) : List Text := sortT (currentOnlyNames cur inc)

/-- The per-block merge of `resolve_proto_conflict`: incoming content is the
base; current-only entries are appended as fresh declaration lines numbered
from `max(incoming_max, current_max) + 1`. -/
def mergeProtoSection (cur inc : Text) : Text :=
  if sortedCurrentOnly cur inc = [] then inc
  else
    pyRstrip inc ++ '\n' ::
      joinNL (additionalLines (extractOneofEntries cur).1 (sortedCurrentOnly cur inc)
        (Nat.max (extractOneofEntries inc).2 (extractOneofEntries cur).2 + 1))

/-- One conflict block as produced by `parse_conflict_sections`. -/
structure Block where
  currentRef : Text
  currentContent : Text
  incomingRef : Text
  incomingContent : Text
  fullMatch : Text
deriving DecidableEq

/-- Earliest split of `s` as `pre ++ pat ++ post`, the semantics of the lazy
quantifier followed by the literal `pat`. -/
def findSplit (pat : Text) : Text → Option (Text × Text)
  | [] => if isPre pat [] then some ([], []) else none
  | s@(c :: r) =>
    if isPre pat s then some ([], s.drop pat.length)
    else
      match findSplit pat r with
      | some (p, q) => some (c :: p, q)
      | none => none

/-- Earliest match of `\n>>>>>>> ([^\n]+)`: returns the lazy prefix consumed
before the marker, the greedy non-newline label, and the remaining text. -/
def findRM : Text → Option (Text × Text × Text)
  | [] => none
  | s@(c :: r) =>
    if isPre rmTok s then
      match s.drop 9 with
      | [] => (findRM r).map (fun x => (c :: x.1, x.2))
      | d :: _ =>
        if d = '\n' then (findRM r).map (fun x => (c :: x.1, x.2))
        else some ([], (s.drop 9).takeWhile (· ≠ '\n'), (s.drop 9).dropWhile (· ≠ '\n'))
    else (findRM r).map (fun x => (c :: x.1, x.2))

/-- Stage three of the block match: the incoming side and its label, via the
lazy search for `\n>>>>>>> ([^\n]+)`. -/
def tryMatchRM (refT cur s4 : Text) : Option (Block × Text) :=
  match findRM s4 with
  | none => none
  | some (inc, iref, rest) =>
    some ({ currentRef := refT, currentContent := cur, incomingRef := iref,
            incomingContent := inc,
            fullMatch := lmTok ++ refT ++ '\n' :: (cur ++ sepTok ++ (inc ++ rmTok ++ iref)) },
          rest)

/-- Stage two of the block match: the current side, via the lazy search for
the earliest `\n=======\n`. -/
def tryMatchTail (refT s3 : Text) : Option (Block × Text) :=
  match findSplit sepTok s3 with
  | none => none
  | some (cur, s4) => tryMatchRM refT cur s4

/-- Attempt to match the conflict-block regex
`<<<<<<< ([^\n]+)\n(.*?)\n=======\n(.*?)\n>>>>>>> ([^\n]+)` (DOTALL) at the
start of `s`; on success returns the block and the remaining text after the
match.  Failure of the later parts never succeeds by backtracking an earlier
part: the label must end at the first newline, and an incoming side that
fails for the earliest separator occurrence fails for every later one. -/
def tryMatch (s : Text) : Option (Block × Text) :=
  if isPre lmTok s then
    if (s.drop 8).takeWhile (· ≠ '\n') = [] then none
    else
      match (s.drop 8).dropWhile (· ≠ '\n') with
      | [] => none
      | _ :: s3 => tryMatchTail ((s.drop 8).takeWhile (· ≠ '\n')) s3
  else none

/-- `re.finditer` over the block pattern: leftmost, non-overlapping; a failed
position advances by one character. -/
def scanBlocks : Nat → Text → List Block
  | 0, _ => []
  | _ + 1, [] => []
  | fuel + 1, s@(_ :: r) =>
    match tryMatch s with
    | some (b, rest) => b :: scanBlocks fuel rest
    | none => scanBlocks fuel r

/-- `MergeConflictResolver.parse_conflict_sections`. -/
def parseConflictSections (s : Text) : List Block := scanBlocks s.length s

/-- Auxiliary scanner for `replaceAll`. -/
def replaceAllAux : Nat → Text → Text → Text → Text
  | 0, s, _, _ => s
  | fuel + 1, s, pat, repl =>
    match s with
    | [] => []
    | c :: r =>
      if isPre pat s then repl ++ replaceAllAux fuel (s.drop pat.length) pat repl
      else c :: replaceAllAux fuel r pat repl

/-- Python `s.replace(pat, repl)`: replace every non-overlapping occurrence,
left to right.  The patterns used by the tool are whole conflict matches and
therefore never empty; an empty pattern is returned unchanged here. -/
def replaceAll (s pat repl : Text) : Text :=
  if pat = [] then s else replaceAllAux s.length s pat repl

/-- The shared shape of the three resolution strategies: parse all blocks of
the buffer, then replace each block's full match by its per-block merge. -/
def resolveWith (mergeSection : Text → Text → Text) (content : Text) : Text :=
  (parseConflictSections content).foldl
    (fun acc b => replaceAll acc b.fullMatch (mergeSection b.currentContent b.incomingContent))
    content

/-- The per-block merge of `resolve_generic_conflict`: incoming first, then
current when current strips to non-empty and differs textually. -/
def mergeGenericSection (cur inc : Text) : Text :=
  if pyStrip cur ≠ [] ∧ cur ≠ inc then inc ++ '\n' :: cur else inc

/-- `MergeConflictResolver.resolve_proto_conflict`. -/
def resolveProtoConflict : Text → Text := resolveWith mergeProtoSection

/-- `MergeConflictResolver.resolve_generic_conflict`. -/
def resolveGenericConflict : Text → Text := resolveWith mergeGenericSection

/-- The quoted group of the import patterns: a `"`, one or more non-quote
characters, a `"`. -/
def scanQuoted (s : Text) : Option Text :=
  match s with
  | '"' :: r =>
    let g := r.takeWhile (· ≠ '"')
    if g = [] then none else
    match r.drop g.length with
    | '"' :: _ => some g
    | _ => none
  | _ => none

/-- `re.search` of the two import patterns `^\s*"([^"]+)"` and
`^\s*\w+\s+"([^"]+)"` against a line, first match wins. -/
def matchImportLine (l : Text) : Option Text :=
  let l1 := l.dropWhile pySpace
  match scanQuoted l1 with
  | some g => some g
  | none =>
    let w := l1.takeWhile isWordC
    if w = [] then none else
    let r := l1.drop w.length
    let sp := r.takeWhile pySpace
    if sp = [] then none else
    scanQuoted (r.drop sp.length)

/-- The `import (` prefix opening an import block. -/
def impOpenTok : Text := ("import (").data

/-- The `import ` prefix of a single-line import. -/
def impTok : Text := ("import ").data

/-- Set insertion for the import set (membership only; the set is always
sorted before any ordered use). -/
def insertImp (imps : List Text) (g : Text) : List Text :=
  if imps.contains g then imps else imps ++ [g]

/-- One line of the `extract_import_statements` loop. -/
def stepImport (st : List Text × Bool) (line : Text) : List Text × Bool :=
  let l := pyStrip line
  if isPre impOpenTok l then (st.1, true)
  else if l = [')'] ∧ st.2 then (st.1, false)
  else if isPre impTok l then
    (match matchImportLine l with
     | some g => insertImp st.1 g
     | none => st.1, st.2)
  else if st.2 ∧ l ≠ [] ∧ ¬ (isPre slTok l) then
    (match matchImportLine l with
     | some g => insertImp st.1 g
     | none => st.1, st.2)
  else st

/-- `MergeConflictResolver.extract_import_statements`. -/
def extractImportStatements (content : Text) : List Text :=
  ((splitNL content).foldl stepImport ([], false)).1

/-- The `default` keyword of the body lookahead. -/
def defaultTok : Text := ("default").data

/-- The fixed re-emission prefix `case *spb.` of `extract_switch_cases`. -/
def caseSpb : Text := ("case *spb.").data

/-- The `case` keyword. -/
def caseTok : Text := ("case").data

/-- The lookahead `(?=case\s|\n\s*default\s*:|$)` terminating a case body. -/
def caseLookahead (t : Text) : Bool :=
  (match t with
   | 'c' :: 'a' :: 's' :: 'e' :: c :: _ => pySpace c
   | _ => false)
  || (match t with
      | '\n' :: r =>
        let r1 := r.dropWhile pySpace
        isPre defaultTok r1 &&
          (match (r1.drop 7).dropWhile pySpace with
           | ':' :: _ => true
           | _ => false)
      | _ => false)
  || t.isEmpty || (t == ['\n'])

/-- The lazy body group `(.*?)` up to the first lookahead position. -/
def splitBody : Text → Text × Text
  | [] => ([], [])
  | s@(c :: r) =>
    if caseLookahead s then ([], s)
    else
      let p := splitBody r
      (c :: p.1, p.2)

/-- The segment of `run` captured by `[^:]*\.([^:]+)`: everything after the
last dot that is followed by at least one character. -/
def lastSeg (run : Text) : Option Text :=
  match run.reverse with
  | [] => none
  | c :: rest =>
    let pre := rest.takeWhile (· ≠ '.')
    if pre.length = rest.length then none
    else some (c :: pre).reverse

/-- Attempt to match `case\s*\*[^:]*\.([^:]+):(.*?)(?=case\s|\n\s*default\s*:|$)`
at the start of `s`; on success returns the stored (key, rewritten text) pair
and the remaining text from the lookahead position. -/
def tryCaseMatch (s : Text) : Option ((Text × Text) × Text) :=
  match s with
  | 'c' :: 'a' :: 's' :: 'e' :: r0 =>
    match r0.dropWhile pySpace with
    | '*' :: r2 =>
      match r2.drop (r2.takeWhile (· ≠ ':')).length with
      | ':' :: r3 =>
        match lastSeg (r2.takeWhile (· ≠ ':')) with
        | none => none
        | some g =>
          some ((pyStrip g, caseSpb ++ pyStrip g ++ ':' :: '\n' :: pyStrip (splitBody r3).1),
            (splitBody r3).2)
      | _ => none
    | _ => none
  | _ => none

/-- `re.finditer` over the case pattern, accumulating the dict. -/
def scanCases : Nat → Text → List (Text × Text) → List (Text × Text)
  | 0, _, acc => acc
  | _ + 1, [], acc => acc
  | fuel + 1, s@(_ :: r), acc =>
    match tryCaseMatch s with
    | some (kv, rest) => scanCases fuel rest (updateA acc kv.1 kv.2)
    | none => scanCases fuel r acc

/-- `MergeConflictResolver.extract_switch_cases`. -/
def extractSwitchCases (content : Text) : List (Text × Text) :=
  scanCases content.length content []

/-- `set(current_cases.keys()) - set(incoming_cases.keys())`. -/
def currentOnlyCaseTags (cur inc : Text) : List Text :=
  (keysA (extractSwitchCases cur)).filter
    (fun k => (lookupA (extractSwitchCases inc) k).isNone)

/-- `sorted(current_only_cases)`. -/
def sortedOnlyCaseTags (cur inc : Text) : List Text := sortT (currentOnlyCaseTags cur inc)

/-- `sorted(current_imports - incoming_imports)`: the missing-import set the
strategy computes and reports but never applies. -/
def missingImports (cur inc : Text) : List Text :=
  sortT ((extractImportStatements cur).filter
    (fun i => ¬ (extractImportStatements inc).contains i))

/-- The per-block merge of `resolve_go_conflict`: incoming content, then each
current-only case appended as `"\n\t" + current_cases[tag]` in sorted tag
order.  The missing-import computation of the source only prints and has no
effect on the returned text. -/
def mergeGoSection (cur inc : Text) : Text :=
  (sortedOnlyCaseTags cur inc).foldl
    (fun acc ct => acc ++ '\n' :: '\t' :: ((lookupA (extractSwitchCases cur) ct).getD []))
    inc

/-- `MergeConflictResolver.resolve_go_conflict`. -/
def resolveGoConflict : Text → Text := resolveWith mergeGoSection

/-- `MergeConflictResolver.has_merge_conflicts` on a buffer: all three marker
tokens must be present. -/
def hasMergeConflicts (s : Text) : Bool :=
  containsSub s lmTok && containsSub s sep7 && containsSub s rm8

/-- The per-file flow of `resolve_all_conflicts` for one conflicted file:
a buffer lacking one of the three tokens is recorded as resolved untouched;
otherwise the strategy output is recorded as resolved exactly when the
current-side marker `<<<<<<< ` no longer occurs in it. -/
def resolveFile (strat : Text → Text) (b : Text) : Text × Bool :=
  if hasMergeConflicts b then (strat b, ! containsSub (strat b) lmTok)
  else (b, true)

/-- Spec-side notion: some conflict-marker token (current-side marker,
separator, or incoming-side marker) occurs in the buffer. -/
def containsAnyMarker (s : Text) : Bool :=
  containsSub s lmTok || containsSub s sep7 || containsSub s rm8

/-- Spec-side description of the entries appended by the schema-field
strategy: the given names in order, typed by lookup in the current-side
dict, numbered consecutively from `n`. -/
def specAppendedEntries (curE : List (Text × FieldVal)) : List Text → Nat → List (Text × FieldVal)
  | [], _ => []
  | nm :: rest, n =>
    (nm, ((lookupA curE nm).getD ([], 0)).1, n) :: specAppendedEntries curE rest (n + 1)

/-! ### Basic lemmas about the text primitives -/

theorem isPre_iff (p s : Text) : isPre p s = true ↔ ∃ t, s = p ++ t := by
  induction p generalizing s with
  | nil => simp [isPre]
  | cons x xs ih =>
    cases s with
    | nil => simp [isPre]
    | cons c cs =>
      simp only [isPre, Bool.and_eq_true, beq_iff_eq, ih, List.cons_append]
      constructor
      · rintro ⟨rfl, t, rfl⟩; exact ⟨t, rfl⟩
      · rintro ⟨t, h⟩
        injection h with h1 h2
        exact ⟨h1.symm, t, h2⟩

theorem isPre_append (p t : Text) : isPre p (p ++ t) = true :=
  (isPre_iff p _).mpr ⟨t, rfl⟩

theorem isPre_false_of_head {x c : Char} {xs cs : Text} (h : x ≠ c) :
    isPre (x :: xs) (c :: cs) = false := by
  simp [isPre, h]

theorem containsSub_iff (s pat : Text) :
    containsSub s pat = true ↔ ∃ u v, s = u ++ pat ++ v := by
  induction s with
  | nil =>
    simp only [containsSub, isPre_iff]
    constructor
    · rintro ⟨t, h⟩
      exact ⟨[], t, by simpa using h⟩
    · rintro ⟨u, v, h⟩
      rcases List.append_eq_nil.mp h.symm with ⟨h1, h2⟩
      rcases List.append_eq_nil.mp h1 with ⟨rfl, rfl⟩
      exact ⟨[], by simp⟩
  | cons c r ih =>
    simp only [containsSub, Bool.or_eq_true, isPre_iff, ih]
    constructor
    · rintro (⟨t, h⟩ | ⟨u, v, h⟩)
      · exact ⟨[], t, by simpa using h⟩
      · exact ⟨c :: u, v, by simp [h]⟩
    · rintro ⟨u, v, h⟩
      cases u with
      | nil => exact Or.inl ⟨v, by simpa using h⟩
      | cons c' u' =>
        injection h with h1 h2
        exact Or.inr ⟨u', v, h2⟩

theorem containsSub_of_parts (u pat v : Text) :
    containsSub (u ++ pat ++ v) pat = true :=
  (containsSub_iff _ _).mpr ⟨u, v, rfl⟩

theorem count_eq_zero_of_all {c : Char} {s : Text} (h : ∀ x ∈ s, x ≠ c) :
    s.count c = 0 :=
  List.count_eq_zero.mpr (fun hc => (h c hc) rfl)

theorem takeWhile_all {p : Char → Bool} : ∀ {xs : Text}, (∀ x ∈ xs, p x = true) →
    xs.takeWhile p = xs
  | [], _ => rfl
  | x :: xs, h => by
    simp only [List.takeWhile_cons, h x (by simp), if_true]
    exact congrArg (x :: ·) (takeWhile_all (fun y hy => h y (by simp [hy])))

theorem takeWhile_append_all {p : Char → Bool} {xs : Text} {y : Char} {r : Text}
    (hxs : ∀ x ∈ xs, p x = true) (hy : p y = false) :
    (xs ++ y :: r).takeWhile p = xs := by
  induction xs with
  | nil => simp [List.takeWhile_cons, hy]
  | cons x xs ih =>
    simp only [List.cons_append, List.takeWhile_cons, hxs x (by simp), if_true]
    exact congrArg (x :: ·) (ih (fun z hz => hxs z (by simp [hz])))

theorem dropWhile_append_all {p : Char → Bool} {xs : Text} {y : Char} {r : Text}
    (hxs : ∀ x ∈ xs, p x = true) (hy : p y = false) :
    (xs ++ y :: r).dropWhile p = y :: r := by
  induction xs with
  | nil => simp [List.dropWhile_cons, hy]
  | cons x xs ih =>
    simp only [List.cons_append, List.dropWhile_cons, hxs x (by simp), if_true]
    exact ih (fun z hz => hxs z (by simp [hz]))

theorem pyRstrip_append_space {s : Text} {c : Char} (h : pySpace c = true) :
    pyRstrip (s ++ [c]) = pyRstrip s := by
  simp [pyRstrip, List.dropWhile_cons, h]

theorem pyRstrip_no_trailing {s : Text} {c : Char} (h : pySpace c = false) :
    pyRstrip (s ++ [c]) = s ++ [c] := by
  simp [pyRstrip, List.dropWhile_cons, h]

theorem pyStrip_append_space {s : Text} {c : Char} (h : pySpace c = true) :
    pyStrip (s ++ [c]) = pyStrip s := by
  unfold pyStrip pyLstrip
  rw [List.dropWhile_append]
  by_cases he : (s.dropWhile pySpace).isEmpty = true
  · simp only [he, if_true]
    rw [List.isEmpty_iff.mp he]
    simp [List.dropWhile_cons, h, pyRstrip]
  · simp only [he, if_false]
    exact pyRstrip_append_space h

theorem pyRstrip_decomp (s : Text) :
    ∃ ws, s = pyRstrip s ++ ws ∧ ∀ c ∈ ws, pySpace c = true := by
  refine ⟨(s.reverse.takeWhile pySpace).reverse, ?_, ?_⟩
  · unfold pyRstrip
    rw [← List.reverse_append, List.takeWhile_append_dropWhile, List.reverse_reverse]
  · intro c hc
    rw [List.mem_reverse] at hc
    exact List.mem_takeWhile_imp hc

/-! ### Lemmas about line splitting -/

theorem splitNL_cons_nl (r : Text) : splitNL ('\n' :: r) = [] :: splitNL r := by
  conv_lhs => rw [splitNL.eq_def]
  simp

theorem splitNL_cons_ne {c : Char} (r : Text) (h : c ≠ '\n') :
    splitNL (c :: r) =
      match splitNL r with
      | [] => [[c]]
      | h :: t => (c :: h) :: t := by
  conv_lhs => rw [splitNL.eq_def]
  simp [h]

theorem splitNL_ne_nil (s : Text) : splitNL s ≠ [] := by
  cases s with
  | nil => simp [splitNL]
  | cons c r =>
    unfold splitNL
    by_cases h : c = '\n'
    · simp [h]
    · simp only [h, if_false]
      cases splitNL r <;> simp

theorem splitNL_append (a b : Text) :
    splitNL (a ++ '\n' :: b) = splitNL a ++ splitNL b := by
  induction a with
  | nil => simp [splitNL]
  | cons c a ih =>
    by_cases h : c = '\n'
    · subst h
      rw [List.cons_append, splitNL_cons_nl, splitNL_cons_nl, ih, List.cons_append]
    · rw [List.cons_append, splitNL_cons_ne _ h, splitNL_cons_ne _ h, ih]
      rcases hs : splitNL a with _ | ⟨hd, tl⟩
      · exact absurd hs (splitNL_ne_nil a)
      · simp

theorem splitNL_no_nl {l : Text} (h : ∀ c ∈ l, c ≠ '\n') : splitNL l = [l] := by
  induction l with
  | nil => rfl
  | cons c r ih =>
    rw [splitNL_cons_ne _ (h c (by simp)), ih (fun x hx => h x (by simp [hx]))]

theorem splitNL_snoc {c : Char} (s : Text) (h : c ≠ '\n') :
    ∃ ls l, splitNL s = ls ++ [l] ∧ splitNL (s ++ [c]) = ls ++ [l ++ [c]] := by
  induction s with
  | nil =>
    refine ⟨[], [], rfl, ?_⟩
    rw [List.nil_append, splitNL_cons_ne _ h]
    rfl
  | cons x r ih =>
    rcases ih with ⟨ls, l, h1, h2⟩
    by_cases hx : x = '\n'
    · subst hx
      refine ⟨[] :: ls, l, ?_, ?_⟩
      · rw [splitNL_cons_nl, h1]; rfl
      · rw [List.cons_append, splitNL_cons_nl, h2]; rfl
    · cases ls with
      | nil =>
        refine ⟨[], x :: l, ?_, ?_⟩
        · rw [splitNL_cons_ne _ hx, h1]
          rfl
        · rw [List.cons_append, splitNL_cons_ne _ hx, h2]
          rfl
      | cons l0 ls' =>
        refine ⟨(x :: l0) :: ls', l, ?_, ?_⟩
        · rw [splitNL_cons_ne _ hx, h1]
          rfl
        · rw [List.cons_append, splitNL_cons_ne _ hx, h2]
          rfl

theorem splitNL_joinNL : ∀ {ls : List Text}, ls ≠ [] →
    (∀ l ∈ ls, ∀ c ∈ l, c ≠ '\n') → splitNL (joinNL ls) = ls
  | [], h, _ => absurd rfl h
  | [l], _, h2 => by
    simpa [joinNL] using splitNL_no_nl (h2 l (by simp))
  | l :: l' :: ls, _, h2 => by
    show splitNL (l ++ '\n' :: joinNL (l' :: ls)) = _
    rw [splitNL_append, splitNL_no_nl (h2 l (by simp)),
      splitNL_joinNL (by simp) (fun x hx => h2 x (List.mem_cons_of_mem _ hx))]
    rfl

/-! ### The sort order -/

theorem textLe_total (a b : Text) : textLe a b = true ∨ textLe b a = true := by
  induction a generalizing b with
  | nil => left; rfl
  | cons x xs ih =>
    cases b with
    | nil => right; rfl
    | cons y ys =>
      rcases lt_trichotomy x y with h | h | h
      · left; simp [textLe, h]
      · subst h
        rcases ih ys with h' | h'
        · left; simp [textLe, lt_irrefl, h']
        · right; simp [textLe, lt_irrefl, h']
      · right; simp [textLe, h]

theorem textLe_trans : ∀ {a b c : Text}, textLe a b = true → textLe b c = true →
    textLe a c = true
  | [], _, _, _, _ => rfl
  | _ :: _, [], _, hab, _ => by simp [textLe] at hab
  | _ :: _, _ :: _, [], _, hbc => by simp [textLe] at hbc
  | x :: xs, y :: ys, z :: zs, hab, hbc => by
    simp only [textLe] at hab hbc ⊢
    by_cases h1 : x < y
    · by_cases h2 : y < z
      · rw [if_pos (lt_trans h1 h2)]
      · by_cases h3 : z < y
        · rw [if_neg h2, if_pos h3] at hbc
          simp at hbc
        · have hyz : y = z := le_antisymm (not_lt.mp h3) (not_lt.mp h2)
          subst hyz
          rw [if_pos h1]
    · by_cases h1' : y < x
      · rw [if_neg h1, if_pos h1'] at hab
        simp at hab
      · have hxy : x = y := le_antisymm (not_lt.mp h1') (not_lt.mp h1)
        subst hxy
        rw [if_neg h1, if_neg h1'] at hab
        by_cases h2 : x < z
        · rw [if_pos h2]
        · by_cases h3 : z < x
          · rw [if_neg h2, if_pos h3] at hbc
            simp at hbc
          · have hxz : x = z := le_antisymm (not_lt.mp h3) (not_lt.mp h2)
            subst hxz
            rw [if_neg h2, if_neg h3] at hbc ⊢
            exact textLe_trans hab hbc

instance : IsTotal Text textLeR := ⟨textLe_total⟩

instance : IsTrans Text textLeR := ⟨fun _ _ _ => textLe_trans⟩

theorem sortT_perm (l : List Text) : (sortT l).Perm l :=
  List.perm_insertionSort textLeR l

theorem sortT_sorted (l : List Text) : (sortT l).Pairwise textLeR :=
  List.sorted_insertionSort textLeR l

/-! ### Dictionary lemmas -/

theorem keysA_cons {β : Type} (e : Text × β) (es : List (Text × β)) :
    keysA (e :: es) = e.1 :: keysA es := rfl

theorem lookupA_none_iff {β : Type} (es : List (Text × β)) (k : Text) :
    lookupA es k = none ↔ k ∉ keysA es := by
  induction es with
  | nil => simp [lookupA, keysA]
  | cons e rest ih =>
    rw [keysA_cons]
    by_cases h : e.1 = k
    · subst h
      simp [lookupA]
    · simp only [lookupA, if_neg h, ih, List.mem_cons]
      constructor
      · rintro hk (rfl | hm)
        · exact h rfl
        · exact hk hm
      · intro hk hm
        exact hk (Or.inr hm)

theorem lookupA_mem {β : Type} : ∀ {es : List (Text × β)} {k : Text} {v : β},
    lookupA es k = some v → (k, v) ∈ es
  | [], _, _, h => by simp [lookupA] at h
  | e :: rest, k, v, h => by
    by_cases he : e.1 = k
    · rw [lookupA, if_pos he] at h
      injection h with h
      have hev : e = (k, v) := by
        rcases e with ⟨k0, v0⟩
        simp only at he h
        rw [he, h]
      rw [← hev]
      exact List.mem_cons_self _ _
    · rw [lookupA, if_neg he] at h
      exact List.mem_cons_of_mem _ (lookupA_mem h)

theorem updateA_not_mem {β : Type} : ∀ {es : List (Text × β)} {k : Text}, k ∉ keysA es →
    ∀ v : β, updateA es k v = es ++ [(k, v)]
  | [], _, _, _ => rfl
  | e :: rest, k, h, v => by
    rw [keysA_cons, List.mem_cons] at h
    push_neg at h
    rw [updateA, if_neg (fun he => h.1 he.symm), updateA_not_mem h.2 v, List.cons_append]

theorem keysA_updateA {β : Type} : ∀ (es : List (Text × β)) (k : Text) (v : β),
    keysA (updateA es k v) = if k ∈ keysA es then keysA es else keysA es ++ [k]
  | [], k, v => by simp [updateA, keysA]
  | e :: rest, k, v => by
    by_cases he : e.1 = k
    · subst he
      simp [updateA, keysA_cons]
    · rw [updateA, if_neg he, keysA_cons, keysA_cons, keysA_updateA rest k v]
      by_cases hm : k ∈ keysA rest
      · simp [hm, List.mem_cons, Ne.symm he]
      · simp [hm, List.mem_cons, Ne.symm he]

theorem nodup_keysA_updateA {β : Type} {es : List (Text × β)} {k : Text} {v : β}
    (h : (keysA es).Nodup) : (keysA (updateA es k v)).Nodup := by
  rw [keysA_updateA]
  by_cases hm : k ∈ keysA es
  · simpa [hm]
  · simp only [hm, if_false]
    simpa [List.nodup_append] using ⟨h, hm⟩

theorem mem_updateA {β : Type} : ∀ {es : List (Text × β)} {k : Text} {v e : _},
    e ∈ updateA es k v → e ∈ es ∨ e = (k, v)
  | [], _, _, _, h => by simpa [updateA] using h
  | e0 :: rest, k, v, e, h => by
    by_cases he : e0.1 = k
    · rw [updateA, if_pos he] at h
      rcases List.mem_cons.mp h with rfl | hm
      · exact Or.inr rfl
      · exact Or.inl (List.mem_cons_of_mem _ hm)
    · rw [updateA, if_neg he] at h
      rcases List.mem_cons.mp h with rfl | hm
      · exact Or.inl (List.mem_cons_self _ _)
      · rcases mem_updateA hm with h' | h'
        · exact Or.inl (List.mem_cons_of_mem _ h')
        · exact Or.inr h'

theorem lookupA_append_left {β : Type} : ∀ {es : List (Text × β)} (es' : List (Text × β))
    {k : Text}, k ∈ keysA es → lookupA (es ++ es') k = lookupA es k
  | [], _, _, h => by simp [keysA] at h
  | e :: rest, es', k, h => by
    by_cases he : e.1 = k
    · rw [List.cons_append, lookupA, if_pos he, lookupA, if_pos he]
    · rw [keysA_cons, List.mem_cons] at h
      rcases h with rfl | h
      · exact absurd rfl he
      · rw [List.cons_append, lookupA, if_neg he, lookupA, if_neg he,
          lookupA_append_left es' h]

theorem key_unique {β : Type} : ∀ {es : List (Text × β)} {k : Text} {v w : β},
    (keysA es).Nodup → (k, v) ∈ es → (k, w) ∈ es → v = w
  | [], _, _, _, _, hv, _ => by simp at hv
  | e :: rest, k, v, w, hnd, hv, hw => by
    rw [keysA_cons] at hnd
    have hk := List.nodup_cons.mp hnd
    rcases List.mem_cons.mp hv with rfl | hv'
    · rcases List.mem_cons.mp hw with hew | hw'
      · exact ((Prod.ext_iff.mp hew).2).symm
      · exact absurd (List.mem_map_of_mem (·.1) hw') hk.1
    · rcases List.mem_cons.mp hw with rfl | hw'
      · exact absurd (List.mem_map_of_mem (·.1) hv') hk.1
      · exact key_unique hk.2 hv' hw'

/-! ### Character class facts -/

theorem pySpace_cases {c : Char} (h : pySpace c = true) :
    c = ' ' ∨ c = '\t' ∨ c = '\n' ∨ c = '\r' ∨ c = '\x0b' ∨ c = '\x0c' := by
  have h' := h
  simp only [pySpace, Bool.or_eq_true, decide_eq_true_eq] at h'
  tauto

theorem not_pySpace_of_word {c : Char} (h : isWordC c = true) : pySpace c = false := by
  cases hps : pySpace c
  · rfl
  · rcases pySpace_cases hps with rfl | rfl | rfl | rfl | rfl | rfl <;>
      exact absurd h (by decide)

theorem not_pySpace_of_digit {c : Char} (h : isDigitC c = true) : pySpace c = false := by
  cases hps : pySpace c
  · rfl
  · rcases pySpace_cases hps with rfl | rfl | rfl | rfl | rfl | rfl <;>
      exact absurd h (by decide)

theorem word_ne_nl {c : Char} (h : isWordC c = true) : c ≠ '\n' := by
  rintro rfl
  exact absurd h (by decide)

theorem word_ne_slash {c : Char} (h : isWordC c = true) : c ≠ '/' := by
  rintro rfl
  exact absurd h (by decide)

theorem digit_ne_nl {c : Char} (h : isDigitC c = true) : c ≠ '\n' := by
  rintro rfl
  exact absurd h (by decide)

/-! ### Decimal formatting and parsing -/

theorem natToTextAux_zero (fuel : Nat) : natToTextAux fuel 0 = [] := by
  cases fuel <;> simp [natToTextAux]

theorem digitCh_digit {d : Nat} (h : d < 10) : isDigitC (digitCh d) = true := by
  interval_cases d <;> decide

theorem digitVal_digitCh {d : Nat} (h : d < 10) : digitVal (digitCh d) = d := by
  interval_cases d <;> decide

theorem natToTextAux_digits : ∀ {fuel n : Nat}, n ≤ fuel →
    ∀ c ∈ natToTextAux fuel n, isDigitC c = true
  | 0, _, _, c, hc => by simp [natToTextAux] at hc
  | fuel + 1, n, h, c, hc => by
    rw [natToTextAux] at hc
    by_cases hn : n = 0
    · simp [hn] at hc
    · rw [if_neg hn] at hc
      rcases List.mem_append.mp hc with hc | hc
      · have hlt : n / 10 ≤ fuel := by
          have := Nat.div_lt_self (Nat.pos_of_ne_zero hn) (by norm_num : 1 < 10)
          omega
        exact natToTextAux_digits hlt c hc
      · rcases List.mem_singleton.mp hc with rfl
        exact digitCh_digit (Nat.mod_lt _ (by norm_num))

theorem parseDigits_snoc (u : Text) (c : Char) :
    parseDigits (u ++ [c]) = parseDigits u * 10 + digitVal c := by
  simp [parseDigits, List.foldl_append]

theorem parseDigits_natToTextAux : ∀ {fuel n : Nat}, n ≤ fuel →
    parseDigits (natToTextAux fuel n) = n
  | 0, n, h => by
    interval_cases n
    simp [natToTextAux, parseDigits]
  | fuel + 1, n, h => by
    rw [natToTextAux]
    by_cases hn : n = 0
    · simp [hn, parseDigits]
    · rw [if_neg hn, parseDigits_snoc]
      have hlt : n / 10 ≤ fuel := by
        have := Nat.div_lt_self (Nat.pos_of_ne_zero hn) (by norm_num : 1 < 10)
        omega
      rw [parseDigits_natToTextAux hlt, digitVal_digitCh (Nat.mod_lt _ (by norm_num))]
      omega

theorem parseDigits_natToText (n : Nat) : parseDigits (natToText n) = n := by
  unfold natToText
  by_cases hn : n = 0
  · simp [hn, parseDigits, digitVal]
  · rw [if_neg hn]
    exact parseDigits_natToTextAux le_rfl

theorem natToText_ne_nil (n : Nat) : natToText n ≠ [] := by
  unfold natToText
  by_cases hn : n = 0
  · simp [hn]
  · rw [if_neg hn]
    rcases n with _ | m
    · exact absurd rfl hn
    · rw [natToTextAux, if_neg hn]
      simp

theorem natToText_digits (n : Nat) : ∀ c ∈ natToText n, isDigitC c = true := by
  unfold natToText
  by_cases hn : n = 0
  · simp only [hn, if_true]
    rintro c hc
    rcases List.mem_singleton.mp hc with rfl
    decide
  · rw [if_neg hn]
    exact natToTextAux_digits le_rfl

/-! ### The field-declaration scanner on formatted lines -/

theorem pyStrip_formatLine {t : Text} (nm : Text) (n : Nat) (ht : t ≠ [])
    (htw : ∀ c ∈ t, isWordC c = true) :
    pyStrip (formatLine t nm n) = t ++ ' ' :: (nm ++ (eqSp ++ (natToText n ++ [';']))) := by
  obtain ⟨t0, t', rfl⟩ := List.exists_cons_of_ne_nil ht
  have hshape : formatLine (t0 :: t') nm n =
      ind4 ++ (t0 :: (t' ++ ' ' :: (nm ++ (eqSp ++ (natToText n ++ [';']))))) := by
    unfold formatLine
    simp
  rw [hshape]
  unfold pyStrip
  rw [show pyLstrip (ind4 ++ (t0 :: (t' ++ ' ' :: (nm ++ (eqSp ++ (natToText n ++ [';'])))))) =
      t0 :: (t' ++ ' ' :: (nm ++ (eqSp ++ (natToText n ++ [';'])))) from
    dropWhile_append_all (by decide) (not_pySpace_of_word (htw t0 (by simp)))]
  have hshape2 : t0 :: (t' ++ ' ' :: (nm ++ (eqSp ++ (natToText n ++ [';'])))) =
      (t0 :: (t' ++ ' ' :: (nm ++ (eqSp ++ natToText n)))) ++ [';'] := by
    simp
  rw [hshape2, pyRstrip_no_trailing (by decide)]
  simp

theorem scanP_append {p : Char → Bool} {xs : Text} {y : Char} {r : Text}
    (hxs : ∀ x ∈ xs, p x = true) (hne : xs ≠ []) (hy : p y = false) :
    scanP p (xs ++ y :: r) = some (xs, y :: r) := by
  unfold scanP
  rw [takeWhile_append_all hxs hy, if_neg hne, List.drop_left]

theorem scanP_inv {p : Char → Bool} {s w r : Text} (h : scanP p s = some (w, r)) :
    w ≠ [] ∧ ∀ c ∈ w, p c = true := by
  unfold scanP at h
  by_cases hg : s.takeWhile p = []
  · rw [if_pos hg] at h
    exact absurd h (by simp)
  · rw [if_neg hg] at h
    injection h with h
    injection h with h1 h2
    subst h1
    exact ⟨hg, fun c hc => List.mem_takeWhile_imp hc⟩

theorem matchFieldDecl_core {t nm : Text} (n : Nat) (ht : t ≠ [])
    (htw : ∀ c ∈ t, isWordC c = true) (hnm : nm ≠ []) (hnw : ∀ c ∈ nm, isWordC c = true) :
    matchFieldDecl (t ++ ' ' :: (nm ++ (eqSp ++ (natToText n ++ [';'])))) = some (t, nm, n) := by
  obtain ⟨m0, m', hm⟩ := List.exists_cons_of_ne_nil hnm
  obtain ⟨d0, d', hd⟩ := List.exists_cons_of_ne_nil (natToText_ne_nil n)
  have hm0w : isWordC m0 = true := hnw m0 (by rw [hm]; simp)
  have hd0 : isDigitC d0 = true := natToText_digits n d0 (by rw [hd]; simp)
  have h1 : scanP isWordC (t ++ ' ' :: (nm ++ (eqSp ++ (natToText n ++ [';'])))) =
      some (t, ' ' :: (nm ++ (eqSp ++ (natToText n ++ [';'])))) :=
    scanP_append htw ht (by decide)
  have h2 : scanP pySpace (' ' :: (nm ++ (eqSp ++ (natToText n ++ [';'])))) =
      some ([' '], nm ++ (eqSp ++ (natToText n ++ [';']))) := by
    rw [hm, show ' ' :: ((m0 :: m') ++ (eqSp ++ (natToText n ++ [';']))) =
      [' '] ++ m0 :: (m' ++ (eqSp ++ (natToText n ++ [';']))) from by simp]
    rw [scanP_append (by decide) (by simp) (not_pySpace_of_word hm0w)]
    simp [hm]
  have heq : nm ++ (eqSp ++ (natToText n ++ [';'])) =
      nm ++ ' ' :: ('=' :: ' ' :: (natToText n ++ [';'])) := by
    show _ = nm ++ ([' '] ++ ('=' :: ' ' :: (natToText n ++ [';'])))
    rw [← List.append_assoc]
    simp [eqSp]
  have h3 : scanP isWordC (nm ++ (eqSp ++ (natToText n ++ [';']))) =
      some (nm, ' ' :: ('=' :: ' ' :: (natToText n ++ [';']))) := by
    rw [heq]
    exact scanP_append hnw hnm (by decide)
  have h4 : (' ' :: ('=' :: ' ' :: (natToText n ++ [';']))).dropWhile pySpace =
      '=' :: (' ' :: (natToText n ++ [';'])) := by
    rw [List.dropWhile_cons, if_pos (by decide), List.dropWhile_cons, if_neg (by decide)]
  have h5 : (' ' :: (natToText n ++ [';'])).dropWhile pySpace = natToText n ++ [';'] := by
    rw [List.dropWhile_cons, if_pos (by decide), hd, List.cons_append, List.dropWhile_cons,
      if_neg (by simp [not_pySpace_of_digit hd0]), ← List.cons_append, ← hd]
  have h6 : scanP isDigitC (natToText n ++ [';']) = some (natToText n, [';']) :=
    scanP_append (natToText_digits n) (natToText_ne_nil n) (by decide)
  unfold matchFieldDecl
  rw [h1]
  simp only [h2, h3, h4, h5, h6, parseDigits_natToText]
  simp

theorem matchFieldDecl_inv {l t nm : Text} {n : Nat}
    (h : matchFieldDecl l = some (t, nm, n)) :
    t ≠ [] ∧ (∀ c ∈ t, isWordC c = true) ∧ nm ≠ [] ∧ (∀ c ∈ nm, isWordC c = true) := by
  unfold matchFieldDecl at h
  split at h
  · exact absurd h (by simp)
  rename_i t1 r1 e1
  split at h
  · exact absurd h (by simp)
  rename_i w2 r2 e2
  split at h
  · exact absurd h (by simp)
  rename_i nm3 r3 e3
  split at h
  · exact absurd h (by simp)
  rename_i c4 r5 e4
  split at h
  · split at h
    · exact absurd h (by simp)
    rename_i ds r6 e5
    split at h
    · exact absurd h (by simp)
    rename_i c6 r7 e6
    split at h
    · injection h with h
      injection h with ha hb
      injection hb with hb _
      subst ha
      subst hb
      obtain ⟨ht1, htw1⟩ := scanP_inv e1
      obtain ⟨hn3, hnw3⟩ := scanP_inv e3
      exact ⟨ht1, htw1, hn3, hnw3⟩
    · exact absurd h (by simp)
  · exact absurd h (by simp)

/-! ### The extraction fold -/

theorem stepEntry_nil (st : List (Text × FieldVal) × Nat) : stepEntry st [] = st := by
  simp [stepEntry, pyStrip, pyLstrip, pyRstrip]

theorem stepEntry_snoc_space (st : List (Text × FieldVal) × Nat) (l : Text) {c : Char}
    (h : pySpace c = true) : stepEntry st (l ++ [c]) = stepEntry st l := by
  unfold stepEntry
  rw [pyStrip_append_space h]

theorem foldl_stepEntry_snoc_space (st : List (Text × FieldVal) × Nat) (s : Text) {c : Char}
    (h : pySpace c = true) :
    (splitNL (s ++ [c])).foldl stepEntry st = (splitNL s).foldl stepEntry st := by
  by_cases hc : c = '\n'
  · subst hc
    rw [show s ++ ['\n'] = s ++ '\n' :: [] from rfl, splitNL_append, List.foldl_append]
    simp [splitNL, stepEntry_nil]
  · obtain ⟨ls, l, h1, h2⟩ := splitNL_snoc s hc
    rw [h1, h2, List.foldl_append, List.foldl_append]
    simp [stepEntry_snoc_space _ _ h]

theorem foldl_stepEntry_ws (st : List (Text × FieldVal) × Nat) :
    ∀ (ws s : Text), (∀ c ∈ ws, pySpace c = true) →
    (splitNL (s ++ ws)).foldl stepEntry st = (splitNL s).foldl stepEntry st
  | [], s, _ => by simp
  | c :: ws', s, h => by
    rw [show s ++ c :: ws' = (s ++ [c]) ++ ws' from by simp]
    rw [foldl_stepEntry_ws st ws' (s ++ [c]) (fun x hx => h x (by simp [hx]))]
    exact foldl_stepEntry_snoc_space st s (h c (by simp))

theorem foldl_stepEntry_rstrip (st : List (Text × FieldVal) × Nat) (s : Text) :
    (splitNL (pyRstrip s)).foldl stepEntry st = (splitNL s).foldl stepEntry st := by
  obtain ⟨ws, hdec, hws⟩ := pyRstrip_decomp s
  conv_rhs => rw [hdec]
  rw [foldl_stepEntry_ws st ws (pyRstrip s) hws]

theorem stepEntry_formatLine (st : List (Text × FieldVal) × Nat) {t nm : Text} (n : Nat)
    (ht : t ≠ []) (htw : ∀ c ∈ t, isWordC c = true) (hnm : nm ≠ [])
    (hnw : ∀ c ∈ nm, isWordC c = true) :
    stepEntry st (formatLine t nm n) = (updateA st.1 nm (t, n), Nat.max st.2 n) := by
  unfold stepEntry
  rw [pyStrip_formatLine nm n ht htw]
  obtain ⟨t0, t', rfl⟩ := List.exists_cons_of_ne_nil ht
  rw [if_neg (by simp)]
  have hsl : isPre slTok (t0 :: (t' ++ ' ' :: (nm ++ (eqSp ++ (natToText n ++ [';']))))) = false := by
    rw [show slTok = '/' :: '/' :: [] from rfl]
    exact isPre_false_of_head (Ne.symm (word_ne_slash (htw t0 (by simp))))
  rw [if_neg (by simp [hsl])]
  rw [matchFieldDecl_core n ht htw hnm hnw]

/-- The fold of `extract_oneof_entries` keeps its dictionary keys without
duplicates. -/
theorem foldl_stepEntry_nodup (lines : List Text) :
    ∀ st : List (Text × FieldVal) × Nat, (keysA st.1).Nodup →
    (keysA (lines.foldl stepEntry st).1).Nodup := by
  induction lines with
  | nil => exact fun st h => h
  | cons l ls ih =>
    intro st h
    apply ih
    unfold stepEntry
    split
    · exact h
    split
    · exact h
    split
    · exact h
    · exact nodup_keysA_updateA h

theorem extractOneofEntries_nodup (s : Text) :
    (keysA (extractOneofEntries s).1).Nodup :=
  foldl_stepEntry_nodup (splitNL s) ([], 0) (by simp [keysA])

/-- Every entry of the fold respects the running maximum. -/
theorem foldl_stepEntry_le_max (lines : List Text) :
    ∀ st : List (Text × FieldVal) × Nat, (∀ e ∈ st.1, e.2.2 ≤ st.2) →
    ∀ e ∈ (lines.foldl stepEntry st).1, e.2.2 ≤ (lines.foldl stepEntry st).2 := by
  induction lines with
  | nil => exact fun st h => h
  | cons l ls ih =>
    intro st h
    apply ih
    unfold stepEntry
    split
    · exact h
    split
    · exact h
    split
    · exact h
    · rename_i t nm k heq
      intro e he
      rcases mem_updateA he with he' | rfl
      · exact le_trans (h e he') (Nat.le_max_left _ _)
      · exact Nat.le_max_right _ _

theorem extractOneofEntries_le_max (s : Text) :
    ∀ e ∈ (extractOneofEntries s).1, e.2.2 ≤ (extractOneofEntries s).2 :=
  foldl_stepEntry_le_max (splitNL s) ([], 0) (by simp)

/-- Every entry of the fold has a nonempty all-word type and name. -/
theorem foldl_stepEntry_wf (lines : List Text) :
    ∀ st : List (Text × FieldVal) × Nat,
    (∀ e ∈ st.1, e.1 ≠ [] ∧ (∀ c ∈ e.1, isWordC c = true) ∧ e.2.1 ≠ [] ∧
      (∀ c ∈ e.2.1, isWordC c = true)) →
    ∀ e ∈ (lines.foldl stepEntry st).1, e.1 ≠ [] ∧ (∀ c ∈ e.1, isWordC c = true) ∧
      e.2.1 ≠ [] ∧ (∀ c ∈ e.2.1, isWordC c = true) := by
  induction lines with
  | nil => exact fun st h => h
  | cons l ls ih =>
    intro st h
    apply ih
    unfold stepEntry
    split
    · exact h
    split
    · exact h
    split
    · exact h
    · rename_i t nm k heq
      intro e he
      rcases mem_updateA he with he' | rfl
      · exact h e he'
      · obtain ⟨h1, h2, h3, h4⟩ := matchFieldDecl_inv heq
        exact ⟨h3, h4, h1, h2⟩

theorem extractOneofEntries_wf (s : Text) :
    ∀ e ∈ (extractOneofEntries s).1, e.1 ≠ [] ∧ (∀ c ∈ e.1, isWordC c = true) ∧
      e.2.1 ≠ [] ∧ (∀ c ∈ e.2.1, isWordC c = true) :=
  foldl_stepEntry_wf (splitNL s) ([], 0) (by simp)

/-! ### Characterization of the schema-field merge -/

theorem keysA_append {β : Type} (a b : List (Text × β)) :
    keysA (a ++ b) = keysA a ++ keysA b :=
  List.map_append _ _ _

theorem lookupA_is_some_of_mem {β : Type} {es : List (Text × β)} {k : Text}
    (h : k ∈ keysA es) : ∃ v, lookupA es k = some v := by
  rcases hl : lookupA es k with _ | v
  · exact absurd ((lookupA_none_iff es k).mp hl) (by simpa using h)
  · exact ⟨v, rfl⟩

theorem formatLine_no_nl {t nm : Text} (n : Nat) (htw : ∀ c ∈ t, isWordC c = true)
    (hnw : ∀ c ∈ nm, isWordC c = true) : ∀ c ∈ formatLine t nm n, c ≠ '\n' := by
  have hind4 : ∀ x ∈ ind4, x ≠ '\n' := by decide
  have heqSp : ∀ x ∈ eqSp, x ≠ '\n' := by decide
  intro c hc
  unfold formatLine at hc
  rcases List.mem_append.mp hc with hc | hc
  on_goal 2 => exact (by rcases List.mem_singleton.mp hc with rfl; decide)
  rcases List.mem_append.mp hc with hc | hc
  on_goal 2 => exact digit_ne_nl (natToText_digits n c hc)
  rcases List.mem_append.mp hc with hc | hc
  on_goal 2 => exact heqSp c hc
  rcases List.mem_append.mp hc with hc | hc
  · rcases List.mem_append.mp hc with hc | hc
    · exact hind4 c hc
    · exact word_ne_nl (htw c hc)
  · rcases List.mem_cons.mp hc with rfl | hc
    · decide
    · exact word_ne_nl (hnw c hc)

theorem additionalLines_ne_nil (curE : List (Text × FieldVal)) {names : List Text}
    (h : names ≠ []) (n : Nat) : additionalLines curE names n ≠ [] := by
  obtain ⟨nm, rest, rfl⟩ := List.exists_cons_of_ne_nil h
  simp [additionalLines]

/-- The heart of the schema-field strategy: folding the extraction step over
the freshly formatted declaration lines appends exactly the spec-side
entries, provided the appended names are fresh and well formed. -/
theorem additional_fold (curE : List (Text × FieldVal))
    (hwf : ∀ e ∈ curE, e.1 ≠ [] ∧ (∀ c ∈ e.1, isWordC c = true) ∧ e.2.1 ≠ [] ∧
      (∀ c ∈ e.2.1, isWordC c = true)) :
    ∀ (names : List Text) (n : Nat) (st : List (Text × FieldVal) × Nat),
    (∀ nm ∈ names, nm ∈ keysA curE) → names.Nodup →
    (∀ nm ∈ names, nm ∉ keysA st.1) →
    ((additionalLines curE names n).foldl stepEntry st).1 =
      st.1 ++ specAppendedEntries curE names n
  | [], n, st, _, _, _ => by simp [additionalLines, specAppendedEntries]
  | nm :: rest, n, st, hmem, hnd, hfresh => by
    obtain ⟨v, hv⟩ := lookupA_is_some_of_mem (hmem nm (by simp))
    obtain ⟨hnm, hnw, hvt, hvw⟩ := hwf (nm, v) (lookupA_mem hv)
    have hstep : stepEntry st (formatLine ((lookupA curE nm).getD ([], 0)).1 nm n) =
        (updateA st.1 nm (((lookupA curE nm).getD ([], 0)).1, n), Nat.max st.2 n) := by
      rw [hv]
      exact stepEntry_formatLine st n hvt hvw hnm hnw
    have hupd : updateA st.1 nm (((lookupA curE nm).getD ([], 0)).1, n) =
        st.1 ++ [(nm, ((lookupA curE nm).getD ([], 0)).1, n)] :=
      updateA_not_mem (hfresh nm (by simp)) _
    show ((additionalLines curE rest (n + 1)).foldl stepEntry
        (stepEntry st (formatLine ((lookupA curE nm).getD ([], 0)).1 nm n))).1 = _
    rw [hstep, hupd]
    rw [additional_fold curE hwf rest (n + 1)
      (st.1 ++ [(nm, ((lookupA curE nm).getD ([], 0)).1, n)], Nat.max st.2 n)
      (fun x hx => hmem x (by simp [hx])) ((List.nodup_cons.mp hnd).2) ?fresh]
    · simp [specAppendedEntries]
    · intro x hx
      rw [keysA_append]
      simp only [List.mem_append]
      push_neg
      constructor
      · exact hfresh x (by simp [hx])
      · have hxnm : x ≠ nm := by
          rintro rfl
          exact (List.nodup_cons.mp hnd).1 hx
        simpa [keysA] using hxnm

/-- The merged text of the schema-field strategy extracts to the incoming
entries followed exactly by the renumbered current-only entries. -/
theorem mergeProto_entries (cur inc : Text) :
    (extractOneofEntries (mergeProtoSection cur inc)).1 =
      (extractOneofEntries inc).1 ++
        specAppendedEntries (extractOneofEntries cur).1 (sortedCurrentOnly cur inc)
          (Nat.max (extractOneofEntries inc).2 (extractOneofEntries cur).2 + 1) := by
  by_cases h0 : sortedCurrentOnly cur inc = []
  · rw [mergeProtoSection, if_pos h0, h0]
    simp [specAppendedEntries]
  · rw [mergeProtoSection, if_neg h0]
    have hsortmem : ∀ nm ∈ sortedCurrentOnly cur inc,
        nm ∈ keysA (extractOneofEntries cur).1 ∧
        (lookupA (extractOneofEntries inc).1 nm).isNone = true := by
      intro nm hnm
      have := (sortT_perm (currentOnlyNames cur inc)).mem_iff.mp hnm
      exact ⟨(List.mem_filter.mp this).1, (List.mem_filter.mp this).2⟩
    have hlines_nl : ∀ l ∈ additionalLines (extractOneofEntries cur).1
        (sortedCurrentOnly cur inc)
        (Nat.max (extractOneofEntries inc).2 (extractOneofEntries cur).2 + 1),
        ∀ c ∈ l, c ≠ '\n' := by
      intro l hl
      have : ∀ (names : List Text) (n : Nat), (∀ nm ∈ names, nm ∈ keysA (extractOneofEntries cur).1) →
          ∀ l ∈ additionalLines (extractOneofEntries cur).1 names n, ∀ c ∈ l, c ≠ '\n' := by
        intro names
        induction names with
        | nil => intro n _ l hl; simp [additionalLines] at hl
        | cons nm rest ih =>
          intro n hmem l hl
          rcases List.mem_cons.mp hl with rfl | hl
          · obtain ⟨v, hv⟩ := lookupA_is_some_of_mem (hmem nm (by simp))
            obtain ⟨_, hnw, _, hvw⟩ := extractOneofEntries_wf cur (nm, v) (lookupA_mem hv)
            rw [hv]
            exact formatLine_no_nl n hvw hnw
          · exact ih (n + 1) (fun x hx => hmem x (by simp [hx])) l hl
      exact this (sortedCurrentOnly cur inc) _ (fun nm hnm => (hsortmem nm hnm).1) l hl
    conv_lhs => rw [extractOneofEntries]
    rw [splitNL_append, List.foldl_append, foldl_stepEntry_rstrip,
      show (splitNL inc).foldl stepEntry ([], 0) = extractOneofEntries inc from rfl,
      splitNL_joinNL (additionalLines_ne_nil _ h0 _) hlines_nl]
    have hwf' : ∀ e ∈ (extractOneofEntries cur).1, e.1 ≠ [] ∧ (∀ c ∈ e.1, isWordC c = true) ∧
        e.2.1 ≠ [] ∧ (∀ c ∈ e.2.1, isWordC c = true) := extractOneofEntries_wf cur
    have hnd : (sortedCurrentOnly cur inc).Nodup :=
      ((sortT_perm (currentOnlyNames cur inc)).symm.nodup
        (List.Nodup.filter _ (extractOneofEntries_nodup cur)))
    exact additional_fold (extractOneofEntries cur).1 hwf' (sortedCurrentOnly cur inc) _
      (extractOneofEntries inc) (fun nm hnm => (hsortmem nm hnm).1) hnd
      (fun nm hnm => (lookupA_none_iff _ _).mp (Option.isNone_iff_eq_none.mp (hsortmem nm hnm).2))

theorem specAppended_keys (curE : List (Text × FieldVal)) :
    ∀ (names : List Text) (n : Nat), keysA (specAppendedEntries curE names n) = names
  | [], _ => rfl
  | nm :: rest, n => by
    rw [specAppendedEntries, keysA_cons, specAppended_keys curE rest (n + 1)]

theorem specAppended_numbers (curE : List (Text × FieldVal)) :
    ∀ (names : List Text) (n : Nat),
    (specAppendedEntries curE names n).map (fun e => e.2.2) = List.range' n names.length
  | [], _ => rfl
  | nm :: rest, n => by
    rw [specAppendedEntries, List.map_cons, specAppended_numbers curE rest (n + 1)]
    rfl

/-! ### Claim C1 -/

/-- C1: for every conflict block handled by the schema-field strategy, the
entries of the merged text are exactly the incoming side's entries (types and
numbers unaltered) followed by the current-only names in lexicographic order
with consecutive numbers starting at `max(maxNumberIncoming, maxNumberCurrent) + 1`;
in particular, for incoming `string Foo = 5;` and current `string Foo = 3;`
plus `int Bar = 6;`, the merged text retains `string Foo = 5;` and appends
`int Bar = 7;`. -/
theorem claim_C1 :
    (∀ cur inc : Text,
      (extractOneofEntries (mergeProtoSection cur inc)).1 =
        (extractOneofEntries inc).1 ++
          specAppendedEntries (extractOneofEntries cur).1 (sortedCurrentOnly cur inc)
            (Nat.max (extractOneofEntries inc).2 (extractOneofEntries cur).2 + 1) ∧
      (sortedCurrentOnly cur inc).Pairwise textLeR ∧
      ∀ n : Nat, keysA (specAppendedEntries (extractOneofEntries cur).1
        (sortedCurrentOnly cur inc) n) = sortedCurrentOnly cur inc) ∧
    mergeProtoSection (("string Foo = 3;\nint Bar = 6;").data) (("string Foo = 5;").data) =
      (("string Foo = 5;\n    int Bar = 7;").data) :=
  ⟨fun cur inc => ⟨mergeProto_entries cur inc, sortT_sorted _,
    fun n => specAppended_keys _ _ n⟩, by decide⟩

/-! ### Claim C2 -/

/-- C2 counterexample: when the incoming side itself declares two different
names with the same number, the schema-field strategy keeps both, so the
field numbers of the merged output contain a duplicate; the claim fails as
stated for this input. -/
theorem claim_C2_cex :
    ¬ (((extractOneofEntries (mergeProtoSection (("x").data)
        (("string A = 1;\nstring B = 1;").data))).1.map (fun e => e.2.2)).Nodup) := by
  decide

/-- C2 (amended): provided the incoming side's own extracted field numbers
are pairwise distinct, the field numbers of the merged output of the
schema-field strategy have no duplicates, even when current and incoming
reuse the same number for different names. -/
theorem claim_C2 {cur inc : Text}
    (hinc : ((extractOneofEntries inc).1.map (fun e => e.2.2)).Nodup) :
    ((extractOneofEntries (mergeProtoSection cur inc)).1.map (fun e => e.2.2)).Nodup := by
  rw [mergeProto_entries, List.map_append, specAppended_numbers]
  refine List.Nodup.append hinc (List.nodup_range' _ _) ?_
  intro x hx hx'
  rcases List.mem_map.mp hx with ⟨e, he, rfl⟩
  have h1 : e.2.2 ≤ (extractOneofEntries inc).2 := extractOneofEntries_le_max inc e he
  have h2 := (List.mem_range'_1.mp hx').1
  have h3 : (extractOneofEntries inc).2 ≤
      Nat.max (extractOneofEntries inc).2 (extractOneofEntries cur).2 :=
    Nat.le_max_left _ _
  omega

/-- C2 witness: the amended theorem applied to the example block of the
specification, where current and incoming reuse different numbers. -/
theorem claim_C2_witness :
    ((extractOneofEntries (("string Foo = 5;").data)).1.map (fun e => e.2.2)).Nodup ∧
    ((extractOneofEntries (mergeProtoSection (("string Foo = 3;\nint Bar = 6;").data)
      (("string Foo = 5;").data))).1.map (fun e => e.2.2)).Nodup :=
  ⟨by decide, claim_C2 (by decide)⟩

/-! ### Claim C3 -/

/-- C3: if a field name occurs on both sides of a block, the merged output of
the schema-field strategy maps it to the incoming side's (type, number), and
when the current side's declaration differs it appears nowhere among the
merged entries. -/
theorem claim_C3 {cur inc nm : Text} {p q : FieldVal}
    (hc : lookupA (extractOneofEntries cur).1 nm = some p)
    (hi : lookupA (extractOneofEntries inc).1 nm = some q) :
    lookupA (extractOneofEntries (mergeProtoSection cur inc)).1 nm = some q ∧
    (p ≠ q → (nm, p) ∉ (extractOneofEntries (mergeProtoSection cur inc)).1) := by
  have hkey : nm ∈ keysA (extractOneofEntries inc).1 :=
    List.mem_map_of_mem (·.1) (lookupA_mem hi)
  constructor
  · rw [mergeProto_entries, lookupA_append_left _ hkey, hi]
  · intro hpq hmem
    rw [mergeProto_entries] at hmem
    rcases List.mem_append.mp hmem with hmem | hmem
    · exact hpq (key_unique (extractOneofEntries_nodup inc) hmem (lookupA_mem hi))
    · have h1 : nm ∈ keysA (specAppendedEntries (extractOneofEntries cur).1
          (sortedCurrentOnly cur inc)
          (Nat.max (extractOneofEntries inc).2 (extractOneofEntries cur).2 + 1)) :=
        List.mem_map_of_mem (·.1) hmem
      rw [specAppended_keys] at h1
      have h2 := (sortT_perm (currentOnlyNames cur inc)).mem_iff.mp h1
      have h3 := (List.mem_filter.mp h2).2
      rw [Option.isNone_iff_eq_none.mp h3] at hi
      exact Option.noConfusion hi

/-- C3 witness: the supersede rule at the specification's example block:
`Foo` occurs on both sides, the merged entries keep `string Foo = 5;` of the
incoming side and do not contain the current side's `string Foo = 3;`. -/
theorem claim_C3_witness :
    lookupA (extractOneofEntries (("string Foo = 3;\nint Bar = 6;").data)).1 (("Foo").data) =
        some ((("string").data), 3) ∧
    lookupA (extractOneofEntries (("string Foo = 5;").data)).1 (("Foo").data) =
        some ((("string").data), 5) ∧
    (lookupA (extractOneofEntries (mergeProtoSection (("string Foo = 3;\nint Bar = 6;").data)
        (("string Foo = 5;").data))).1 (("Foo").data) = some ((("string").data), 5) ∧
      (((("string").data : Text), (3 : Nat)) ≠ ((("string").data : Text), (5 : Nat)) →
        ((("Foo").data, (("string").data), (3 : Nat)) ∉
          (extractOneofEntries (mergeProtoSection (("string Foo = 3;\nint Bar = 6;").data)
            (("string Foo = 5;").data))).1))) :=
  ⟨by decide, by decide, claim_C3 (by decide) (by decide)⟩

/-! ### The parser on marker-free buffers -/

theorem scanBlocks_empty : ∀ (fuel : Nat) (s : Text), containsSub s lmTok = false →
    scanBlocks fuel s = []
  | 0, _, _ => rfl
  | _ + 1, [], _ => rfl
  | fuel + 1, c :: r, h => by
    have hparts := Bool.or_eq_false_iff.mp (by simpa [containsSub] using h)
    have ht : tryMatch (c :: r) = none := by
      rw [tryMatch, if_neg (by simp [hparts.1])]
    show (match tryMatch (c :: r) with
      | some (b, rest) => b :: scanBlocks fuel rest
      | none => scanBlocks fuel r) = []
    rw [ht]
    exact scanBlocks_empty fuel r hparts.2

theorem resolveWith_no_lm {b : Text} (h : containsSub b lmTok = false)
    (ms : Text → Text → Text) : resolveWith ms b = b := by
  unfold resolveWith parseConflictSections
  rw [scanBlocks_empty _ _ h]
  rfl

/-! ### Claim C5 -/

/-- C5: a buffer containing none of the three conflict-marker tokens parses
to no blocks, each of the three strategies returns it byte-identical, and the
per-file flow classifies it as fully resolved with unchanged output. -/
theorem claim_C5 {b : Text} (h1 : containsSub b lmTok = false)
    (h2 : containsSub b sep7 = false) (h3 : containsSub b rm8 = false) :
    parseConflictSections b = [] ∧
    resolveProtoConflict b = b ∧ resolveGoConflict b = b ∧ resolveGenericConflict b = b ∧
    resolveFile resolveProtoConflict b = (b, true) ∧
    resolveFile resolveGoConflict b = (b, true) ∧
    resolveFile resolveGenericConflict b = (b, true) := by
  have hm : hasMergeConflicts b = false := by simp [hasMergeConflicts, h1]
  have hp : parseConflictSections b = [] := by
    unfold parseConflictSections
    exact scanBlocks_empty _ _ h1
  refine ⟨hp, resolveWith_no_lm h1 _, resolveWith_no_lm h1 _, resolveWith_no_lm h1 _,
    ?_, ?_, ?_⟩ <;>
    rw [resolveFile, if_neg (by simp [hm])]

/-- C5 witness: a two-line buffer with no marker tokens. -/
theorem claim_C5_witness :
    (containsSub (("hello\nworld").data) lmTok = false ∧
      containsSub (("hello\nworld").data) sep7 = false ∧
      containsSub (("hello\nworld").data) rm8 = false) ∧
    parseConflictSections (("hello\nworld").data) = [] ∧
    resolveGenericConflict (("hello\nworld").data) = ("hello\nworld").data ∧
    resolveFile resolveGenericConflict (("hello\nworld").data) = ((("hello\nworld").data), true) :=
  ⟨⟨by decide, by decide, by decide⟩,
    (claim_C5 (by decide) (by decide) (by decide)).1,
    (claim_C5 (by decide) (by decide) (by decide)).2.2.2.1,
    (claim_C5 (by decide) (by decide) (by decide)).2.2.2.2.2.2⟩

/-! ### Claim C4 -/

/-- C4 counterexample: a buffer whose single block resolves but which keeps a
stray separator line is classified fully resolved even though a marker token
(`=======`) remains in the output, refuting the claimed equivalence with the
absence of all three marker tokens. -/
theorem claim_C4_cex :
    resolveFile resolveGenericConflict (("<<<<<<< a\nX\n=======\nY\n>>>>>>> b\n=======").data) =
      ((("Y\nX\n=======").data), true) ∧
    containsAnyMarker (("Y\nX\n=======").data) = true := by
  exact ⟨by decide, by decide⟩

/-- C4 (amended): after applying a strategy, the re-scan of the output checks
only the current-side marker `<<<<<<< `: a file that had all three tokens is
classified fully resolved iff that single token no longer occurs in the
strategy output; a file lacking one of the three tokens is classified fully
resolved with its buffer unchanged and never rewritten. -/
theorem claim_C4 (strat : Text → Text) (b : Text) :
    (hasMergeConflicts b = true →
      ((resolveFile strat b).2 = true ↔
        containsSub (resolveFile strat b).1 lmTok = false)) ∧
    (hasMergeConflicts b = false → resolveFile strat b = (b, true)) := by
  constructor
  · intro h
    rw [resolveFile, if_pos h]
    simp
  · intro h
    rw [resolveFile, if_neg (by simp [h])]

/-- C4 witness: the amended classification rule at the counterexample buffer. -/
theorem claim_C4_witness :
    hasMergeConflicts (("<<<<<<< a\nX\n=======\nY\n>>>>>>> b\n=======").data) = true ∧
    ((resolveFile resolveGenericConflict
        (("<<<<<<< a\nX\n=======\nY\n>>>>>>> b\n=======").data)).2 = true ↔
      containsSub (resolveFile resolveGenericConflict
        (("<<<<<<< a\nX\n=======\nY\n>>>>>>> b\n=======").data)).1 lmTok = false) :=
  ⟨by decide, (claim_C4 resolveGenericConflict _).1 (by decide)⟩

/-! ### Claim C6 -/

/-- C6 counterexample: a whitespace-only current side is non-empty and
textually different from the incoming side, yet the generic strategy returns
the incoming text alone, because the source tests `current.strip()` rather
than plain non-emptiness. -/
theorem claim_C6_cex :
    ((" ").data ≠ ([] : Text) ∧ (" ").data ≠ ("A").data) ∧
    mergeGenericSection ((" ").data) (("A").data) = ("A").data ∧
    mergeGenericSection ((" ").data) (("A").data) ≠ ("A").data ++ '\n' :: (" ").data := by
  exact ⟨⟨by decide, by decide⟩, by decide, by decide⟩

/-- C6 (amended): the generic strategy returns the incoming text followed by
a newline and the current text exactly when the current text strips to a
non-empty string and differs textually from the incoming text, and returns
exactly the incoming text otherwise; identical sides are not duplicated. -/
theorem claim_C6 :
    (∀ cur inc : Text,
      (pyStrip cur ≠ [] → cur ≠ inc → mergeGenericSection cur inc = inc ++ '\n' :: cur) ∧
      (pyStrip cur = [] ∨ cur = inc → mergeGenericSection cur inc = inc)) ∧
    mergeGenericSection (("A").data) (("A").data) = ("A").data := by
  constructor
  · intro cur inc
    constructor
    · intro hs hne
      rw [mergeGenericSection, if_pos ⟨hs, hne⟩]
    · intro h
      rw [mergeGenericSection, if_neg]
      rcases h with h | h
      · rintro ⟨h1, _⟩
        exact h1 h
      · rintro ⟨_, h2⟩
        exact h2 h
  · decide

/-- C6 witness: both branches of the amended rule at concrete blocks. -/
theorem claim_C6_witness :
    (pyStrip (("B").data) ≠ [] ∧ ("B").data ≠ ("A").data ∧
      mergeGenericSection (("B").data) (("A").data) = ("A").data ++ '\n' :: ("B").data) ∧
    (pyStrip (("  ").data) = [] ∧ mergeGenericSection (("  ").data) (("A").data) = ("A").data) :=
  ⟨⟨by decide, by decide, (claim_C6.1 (("B").data) (("A").data)).1 (by decide) (by decide)⟩,
    ⟨by decide, (claim_C6.1 (("  ").data) (("A").data)).2 (Or.inl (by decide))⟩⟩

/-! ### Claim C7 -/

/-- C7 counterexample: the import content of the merged output is not always
exactly that of the incoming side: when the incoming side ends inside an
open import block, an appended case body that happens to contain a quoted
line is picked up by the import extractor, so the output's import content
differs from the incoming side's. -/
theorem claim_C7_cex :
    extractImportStatements (("import (").data) = [] ∧
    extractImportStatements (mergeGoSection (("case *a.B:\n\"p/q\"").data)
        (("import (").data)) ≠ extractImportStatements (("import (").data) := by
  exact ⟨by decide, by decide⟩

/-- C7 (amended): the import/case strategy computes the missing-import set
but never splices it into the output: the merged text depends only on the
extracted switch cases of the current side (two currents with equal cases
yield byte-identical output for every incoming side), a block with no
current-only cases is returned as exactly the incoming text, and in
particular a nonempty computed missing-import set is reported while the
output equals the incoming text unchanged. -/
theorem claim_C7 :
    (∀ cur cur' inc : Text, extractSwitchCases cur = extractSwitchCases cur' →
      mergeGoSection cur inc = mergeGoSection cur' inc) ∧
    (∀ cur inc : Text, sortedOnlyCaseTags cur inc = [] → mergeGoSection cur inc = inc) ∧
    missingImports (("import (\n\t\"x\"\n)").data) (("y := 1").data) = [("x").data] ∧
    mergeGoSection (("import (\n\t\"x\"\n)").data) (("y := 1").data) = ("y := 1").data := by
  refine ⟨?_, ?_, by decide, by decide⟩
  · intro cur cur' inc h
    unfold mergeGoSection sortedOnlyCaseTags currentOnlyCaseTags
    rw [h]
  · intro cur inc h
    unfold mergeGoSection
    rw [h]
    rfl

/-- C7 witness: two current sides with equal (empty) switch cases but
different imports produce byte-identical merged output. -/
theorem claim_C7_witness :
    extractSwitchCases (("import (\n\t\"x\"\n)").data) =
      extractSwitchCases (("import (\n\t\"zz\"\n)").data) ∧
    mergeGoSection (("import (\n\t\"x\"\n)").data) (("y := 1").data) =
      mergeGoSection (("import (\n\t\"zz\"\n)").data) (("y := 1").data) :=
  ⟨by decide, claim_C7.1 _ _ _ (by decide)⟩

/-! ### Claim C10 -/

theorem tryCaseMatch_inv {s rest k v : Text}
    (h : tryCaseMatch s = some ((k, v), rest)) :
    ∃ b, v = caseSpb ++ k ++ ':' :: '\n' :: b := by
  unfold tryCaseMatch at h
  split at h
  on_goal 2 => exact absurd h (by simp)
  split at h
  on_goal 2 => exact absurd h (by simp)
  split at h
  on_goal 2 => exact absurd h (by simp)
  split at h
  · exact absurd h (by simp)
  · rename_i g hg
    injection h with h
    injection h with hkv hrest
    injection hkv with hk hv
    subst hk
    exact ⟨_, hv.symm⟩

theorem scanCases_spb : ∀ (fuel : Nat) (s : Text) (acc : List (Text × Text)),
    (∀ e ∈ acc, ∃ b, e.2 = caseSpb ++ e.1 ++ ':' :: '\n' :: b) →
    ∀ e ∈ scanCases fuel s acc, ∃ b, e.2 = caseSpb ++ e.1 ++ ':' :: '\n' :: b
  | 0, _, acc, hacc => hacc
  | _ + 1, [], acc, hacc => hacc
  | fuel + 1, c :: r, acc, hacc => by
    show ∀ e ∈ (match tryCaseMatch (c :: r) with
      | some (kv, rest) => scanCases fuel rest (updateA acc kv.1 kv.2)
      | none => scanCases fuel r acc), ∃ b, e.2 = caseSpb ++ e.1 ++ ':' :: '\n' :: b
    rcases htc : tryCaseMatch (c :: r) with _ | ⟨⟨k, v⟩, rest⟩
    · exact scanCases_spb fuel r acc hacc
    · refine scanCases_spb fuel rest (updateA acc k v) ?_
      intro e he
      rcases mem_updateA he with he' | rfl
      · exact hacc e he'
      · exact tryCaseMatch_inv htc

/-- C10: every dispatch case stored by `extract_switch_cases` is re-emitted
under the fixed package qualifier `spb`, regardless of the qualifier in the
source text; hence a current-only case appended by the import/case merge
carries the `spb.` prefix even when its original text used another
qualifier. -/
theorem claim_C10 :
    (∀ (content : Text) (e : Text × Text), e ∈ extractSwitchCases content →
      ∃ b, e.2 = caseSpb ++ e.1 ++ ':' :: '\n' :: b) ∧
    extractSwitchCases (("case *otherpb.Foo:\n\treturn 1").data) =
      [((("Foo").data), ("case *spb.Foo:\nreturn 1").data)] ∧
    mergeGoSection (("case *otherpb.Foo:\n\treturn 1").data) (("x").data) =
      ("x\n\tcase *spb.Foo:\nreturn 1").data := by
  refine ⟨?_, by decide, by decide⟩
  intro content e he
  exact scanCases_spb content.length content [] (by simp) e he

/-- C10 witness: the spb rewrite of a case declared under qualifier
`otherpb`. -/
theorem claim_C10_witness :
    ((("Foo").data, ("case *spb.Foo:\nreturn 1").data) ∈
      extractSwitchCases (("case *otherpb.Foo:\n\treturn 1").data)) ∧
    ∃ b, (("case *spb.Foo:\nreturn 1").data : Text) =
      caseSpb ++ ("Foo").data ++ ':' :: '\n' :: b :=
  ⟨by decide, claim_C10.1 (("case *otherpb.Foo:\n\treturn 1").data)
    ((("Foo").data), ("case *spb.Foo:\nreturn 1").data) (by decide)⟩

/-! ### Claim C8 -/

/-- C8: the schema-field and import/case strategies emit newly added names
and case tags as a fixed sorted permutation of the current-only sets —
pairwise ordered by the code-point lexicographic order — so their output is
a function of the input text alone, not of the iteration order of any
unordered structure; repeated runs on byte-identical input are
byte-identical. -/
theorem claim_C8 (cur inc : Text) :
    (sortedCurrentOnly cur inc).Pairwise textLeR ∧
    (sortedCurrentOnly cur inc).Perm (currentOnlyNames cur inc) ∧
    (sortedOnlyCaseTags cur inc).Pairwise textLeR ∧
    (sortedOnlyCaseTags cur inc).Perm (currentOnlyCaseTags cur inc) ∧
    mergeProtoSection cur inc = mergeProtoSection cur inc ∧
    mergeGoSection cur inc = mergeGoSection cur inc :=
  ⟨sortT_sorted _, sortT_perm _, sortT_sorted _, sortT_perm _, rfl, rfl⟩

/-! ### Claim C9: degenerate regions with an empty side -/

/-- A conflict region whose current side has zero lines: the marker line is
immediately followed by the separator line. -/
def shapeEmptyCurrent (a y b : Text) : Text :=
  lmTok ++ (a ++ '\n' :: (sep7 ++ '\n' :: (y ++ '\n' :: (rm8 ++ b))))

/-- A conflict region whose incoming side has zero lines: the separator line
is immediately followed by the incoming marker line. -/
def shapeEmptyIncoming (a x b : Text) : Text :=
  lmTok ++ (a ++ '\n' :: (x ++ (sepTok ++ (rm8 ++ b))))

theorem sepTok_cons : sepTok = '\n' :: (sep7 ++ ['\n']) := rfl

theorem rmTok_cons : rmTok = '\n' :: rm8 := rfl

theorem drop8_lm (z : Text) : (lmTok ++ z).drop 8 = z := by
  rw [show (8 : Nat) = lmTok.length from rfl]
  exact List.drop_left _ _

theorem findSplit_cons (pat : Text) (c : Char) (r : Text) :
    findSplit pat (c :: r) =
      if isPre pat (c :: r) then some ([], (c :: r).drop pat.length)
      else
        match findSplit pat r with
        | some (p, q) => some (c :: p, q)
        | none => none := rfl

theorem findSplit_sound (pat : Text) : ∀ {s p q : Text},
    findSplit pat s = some (p, q) → s = p ++ pat ++ q
  | [], p, q, h => by
    unfold findSplit at h
    by_cases hp : isPre pat []
    · rw [if_pos hp] at h
      obtain ⟨t, ht⟩ := (isPre_iff pat []).mp hp
      rcases List.append_eq_nil.mp ht.symm with ⟨rfl, rfl⟩
      injection h with h
      injection h with h1 h2
      subst h1
      subst h2
      rfl
    · rw [if_neg hp] at h
      exact absurd h (by simp)
  | c :: r, p, q, h => by
    rw [findSplit_cons] at h
    by_cases hp : isPre pat (c :: r)
    · rw [if_pos hp] at h
      obtain ⟨t, ht⟩ := (isPre_iff _ _).mp hp
      injection h with h
      injection h with h1 h2
      subst h1
      rw [ht, List.drop_left] at h2
      rw [ht, ← h2]
      simp
    · rw [if_neg hp] at h
      rcases hr : findSplit pat r with _ | ⟨p', q'⟩ <;> rw [hr] at h
      · exact absurd h (by simp)
      · injection h with h
        injection h with h1 h2
        subst h2
        rw [← h1, show c :: r = c :: (p' ++ pat ++ q') from by
          rw [← findSplit_sound pat hr]]
        simp

theorem findSplit_none_of_no_occ {pat s : Text} (h : ∀ u v, s ≠ u ++ pat ++ v) :
    findSplit pat s = none := by
  rcases hs : findSplit pat s with _ | ⟨p, q⟩
  · rfl
  · exact absurd (findSplit_sound pat hs) (h p q)

theorem findSplit_at {p0 : Char} {pt : Text} : ∀ (x v : Text), (∀ c ∈ x, c ≠ p0) →
    findSplit (p0 :: pt) (x ++ ((p0 :: pt) ++ v)) = some (x, v)
  | [], v, _ => by
    rw [show ([] : Text) ++ ((p0 :: pt) ++ v) = p0 :: (pt ++ v) from by simp]
    rw [findSplit_cons,
      if_pos (show isPre (p0 :: pt) (p0 :: (pt ++ v)) = true from isPre_append (p0 :: pt) v)]
    rw [show (p0 :: (pt ++ v)).drop (p0 :: pt).length = v from List.drop_left (p0 :: pt) v]
  | c :: x', v, hx => by
    rw [show (c :: x') ++ ((p0 :: pt) ++ v) = c :: (x' ++ ((p0 :: pt) ++ v)) from rfl]
    rw [findSplit_cons,
      if_neg (by simp [isPre_false_of_head (Ne.symm (hx c (by simp)))]),
      findSplit_at x' v (fun z hz => hx z (by simp [hz]))]

theorem findRM_cons (c : Char) (r : Text) :
    findRM (c :: r) =
      if isPre rmTok (c :: r) then
        match (c :: r).drop 9 with
        | [] => (findRM r).map (fun x => (c :: x.1, x.2))
        | d :: _ =>
          if d = '\n' then (findRM r).map (fun x => (c :: x.1, x.2))
          else some ([], ((c :: r).drop 9).takeWhile (· ≠ '\n'),
            ((c :: r).drop 9).dropWhile (· ≠ '\n'))
      else (findRM r).map (fun x => (c :: x.1, x.2)) := rfl

theorem findRM_none : ∀ {s : Text}, (∀ c ∈ s, c ≠ '\n') → findRM s = none
  | [], _ => rfl
  | c :: r, h => by
    have hpre : isPre rmTok (c :: r) = false := by
      rw [rmTok_cons]
      exact isPre_false_of_head (Ne.symm (h c (by simp)))
    rw [findRM_cons, if_neg (by simp [hpre]), findRM_none (fun z hz => h z (by simp [hz]))]
    rfl

theorem not_containsSub_lm_of_count {t : Text} (h : t.count '<' < 7) :
    containsSub t lmTok = false := by
  cases hc : containsSub t lmTok
  · rfl
  · obtain ⟨u, v, huv⟩ := (containsSub_iff t lmTok).mp hc
    rw [huv, List.count_append, List.count_append] at h
    have h7 : lmTok.count '<' = 7 := by decide
    omega

theorem resolveWith_of_parse_nil {b : Text} (h : parseConflictSections b = [])
    (ms : Text → Text → Text) : resolveWith ms b = b := by
  unfold resolveWith
  rw [h]
  rfl

theorem parse_of_tryMatch_none (s t : Text) (hs : s = '<' :: t)
    (htm : tryMatch s = none) (hcnt : t.count '<' < 7) :
    parseConflictSections s = [] := by
  unfold parseConflictSections
  rw [hs]
  show (match tryMatch ('<' :: t) with
    | some (b, rest) => b :: scanBlocks t.length rest
    | none => scanBlocks t.length t) = []
  have htm' : tryMatch ('<' :: t) = none := by
    rw [← hs]
    exact htm
  rw [htm']
  exact scanBlocks_empty _ _ (not_containsSub_lm_of_count hcnt)

/-- No occurrence of the separator context in the tail of a zero-line
current side: the only run of seven equals signs sits at the very start,
where no newline precedes it. -/
theorem no_sepTok_occ {y b : Text} (hy : ∀ c ∈ y, c ≠ '=') (hb : ∀ c ∈ b, c ≠ '=') :
    ∀ u v, sep7 ++ '\n' :: (y ++ '\n' :: (rm8 ++ b)) ≠ u ++ sepTok ++ v := by
  intro u v heq
  have hnorm : sep7 ++ '\n' :: (y ++ '\n' :: (rm8 ++ b)) =
      sep7 ++ ['\n'] ++ y ++ ['\n'] ++ rm8 ++ b := by simp
  rw [hnorm] at heq
  have hcy : y.count '=' = 0 := count_eq_zero_of_all hy
  have hcb : b.count '=' = 0 := count_eq_zero_of_all hb
  have htotal := congrArg (List.count '=') heq
  simp only [List.count_append, hcy, hcb,
    show sep7.count '=' = 7 from by decide,
    show (['\n'] : Text).count '=' = 0 from by decide,
    show rm8.count '=' = 0 from by decide,
    show sepTok.count '=' = 7 from by decide] at htotal
  have hu0 : u.count '=' = 0 := by omega
  rcases u with _ | ⟨u0, u'⟩
  · rw [List.nil_append, show sep7 = '=' :: (("======").data) from rfl, sepTok_cons] at heq
    simp only [List.cons_append, List.append_assoc] at heq
    injection heq with h1 _
    exact absurd h1 (by decide)
  · rw [show sep7 = '=' :: (("======").data) from rfl] at heq
    simp only [List.cons_append, List.append_assoc] at heq
    injection heq with h1 _
    rw [← h1, List.count_cons_self] at hu0
    omega

theorem tryMatch_shapeEmptyCurrent {a y b : Text} (ha0 : a ≠ [])
    (haN : ∀ c ∈ a, c ≠ '\n') (hy : ∀ c ∈ y, c ≠ '=') (hb : ∀ c ∈ b, c ≠ '=') :
    tryMatch (shapeEmptyCurrent a y b) = none := by
  unfold tryMatch shapeEmptyCurrent
  rw [if_pos (isPre_append lmTok _), drop8_lm,
    takeWhile_append_all (fun c hc => decide_eq_true (haN c hc)) (by decide),
    if_neg ha0,
    dropWhile_append_all (fun c hc => decide_eq_true (haN c hc)) (by decide)]
  show tryMatchTail a (sep7 ++ '\n' :: (y ++ '\n' :: (rm8 ++ b))) = none
  unfold tryMatchTail
  rw [findSplit_none_of_no_occ (no_sepTok_occ hy hb)]

theorem tryMatch_shapeEmptyIncoming {a x b : Text} (ha0 : a ≠ [])
    (haN : ∀ c ∈ a, c ≠ '\n') (hx : ∀ c ∈ x, c ≠ '\n') (hb : ∀ c ∈ b, c ≠ '\n') :
    tryMatch (shapeEmptyIncoming a x b) = none := by
  unfold tryMatch shapeEmptyIncoming
  rw [if_pos (isPre_append lmTok _), drop8_lm,
    takeWhile_append_all (fun c hc => decide_eq_true (haN c hc)) (by decide),
    if_neg ha0,
    dropWhile_append_all (fun c hc => decide_eq_true (haN c hc)) (by decide)]
  show tryMatchTail a (x ++ (sepTok ++ (rm8 ++ b))) = none
  unfold tryMatchTail
  rw [sepTok_cons, findSplit_at x (rm8 ++ b) hx]
  show tryMatchRM a x (rm8 ++ b) = none
  unfold tryMatchRM
  rw [findRM_none ?nonl]
  case nonl =>
    intro c hc
    rcases List.mem_append.mp hc with hc | hc
    · have : ∀ z ∈ rm8, z ≠ '\n' := by decide
      exact this c hc
    · exact hb c hc

theorem parse_shapeEmptyCurrent {a y b : Text} (ha0 : a ≠ [])
    (haN : ∀ c ∈ a, c ≠ '\n') (haL : ∀ c ∈ a, c ≠ '<')
    (hyE : ∀ c ∈ y, c ≠ '=') (hyL : ∀ c ∈ y, c ≠ '<')
    (hbE : ∀ c ∈ b, c ≠ '=') (hbL : ∀ c ∈ b, c ≠ '<') :
    parseConflictSections (shapeEmptyCurrent a y b) = [] := by
  apply parse_of_tryMatch_none (shapeEmptyCurrent a y b)
    (("<<<<<< ").data ++ (a ++ '\n' :: (sep7 ++ '\n' :: (y ++ '\n' :: (rm8 ++ b)))))
  · rfl
  · exact tryMatch_shapeEmptyCurrent ha0 haN hyE hbE
  · rw [show ("<<<<<< ").data ++ (a ++ '\n' :: (sep7 ++ '\n' :: (y ++ '\n' :: (rm8 ++ b)))) =
      ("<<<<<< ").data ++ a ++ ['\n'] ++ sep7 ++ ['\n'] ++ y ++ ['\n'] ++ rm8 ++ b from by simp]
    simp only [List.count_append,
      show ((("<<<<<< ").data).count '<') = 6 from by decide,
      show ((['\n'] : Text).count '<') = 0 from by decide,
      show (sep7.count '<') = 0 from by decide,
      show (rm8.count '<') = 0 from by decide,
      count_eq_zero_of_all haL, count_eq_zero_of_all hyL, count_eq_zero_of_all hbL]
    omega

theorem parse_shapeEmptyIncoming {a x b : Text} (ha0 : a ≠ [])
    (haN : ∀ c ∈ a, c ≠ '\n') (haL : ∀ c ∈ a, c ≠ '<')
    (hxN : ∀ c ∈ x, c ≠ '\n') (hxL : ∀ c ∈ x, c ≠ '<')
    (hbN : ∀ c ∈ b, c ≠ '\n') (hbL : ∀ c ∈ b, c ≠ '<') :
    parseConflictSections (shapeEmptyIncoming a x b) = [] := by
  apply parse_of_tryMatch_none (shapeEmptyIncoming a x b)
    (("<<<<<< ").data ++ (a ++ '\n' :: (x ++ (sepTok ++ (rm8 ++ b)))))
  · rfl
  · exact tryMatch_shapeEmptyIncoming ha0 haN hxN hbN
  · rw [show ("<<<<<< ").data ++ (a ++ '\n' :: (x ++ (sepTok ++ (rm8 ++ b)))) =
      ("<<<<<< ").data ++ a ++ ['\n'] ++ x ++ sepTok ++ rm8 ++ b from by simp]
    simp only [List.count_append,
      show ((("<<<<<< ").data).count '<') = 6 from by decide,
      show ((['\n'] : Text).count '<') = 0 from by decide,
      show (sepTok.count '<') = 0 from by decide,
      show (rm8.count '<') = 0 from by decide,
      count_eq_zero_of_all haL, count_eq_zero_of_all hxL, count_eq_zero_of_all hbL]
    omega

theorem hasConf_shapeEmptyCurrent (a y b : Text) :
    hasMergeConflicts (shapeEmptyCurrent a y b) = true := by
  have hlm : containsSub (shapeEmptyCurrent a y b) lmTok = true :=
    containsSub_of_parts [] lmTok (a ++ '\n' :: (sep7 ++ '\n' :: (y ++ '\n' :: (rm8 ++ b))))
  have hsep : containsSub (shapeEmptyCurrent a y b) sep7 = true := by
    rw [show shapeEmptyCurrent a y b =
      (lmTok ++ a ++ ['\n']) ++ sep7 ++ ('\n' :: (y ++ '\n' :: (rm8 ++ b))) from by
      unfold shapeEmptyCurrent; simp]
    exact containsSub_of_parts _ _ _
  have hrm : containsSub (shapeEmptyCurrent a y b) rm8 = true := by
    rw [show shapeEmptyCurrent a y b =
      (lmTok ++ a ++ ['\n'] ++ sep7 ++ ['\n'] ++ y ++ ['\n']) ++ rm8 ++ b from by
      unfold shapeEmptyCurrent; simp]
    exact containsSub_of_parts _ _ _
  simp [hasMergeConflicts, hlm, hsep, hrm]

theorem hasConf_shapeEmptyIncoming (a x b : Text) :
    hasMergeConflicts (shapeEmptyIncoming a x b) = true := by
  have hlm : containsSub (shapeEmptyIncoming a x b) lmTok = true :=
    containsSub_of_parts [] lmTok (a ++ '\n' :: (x ++ (sepTok ++ (rm8 ++ b))))
  have hsep : containsSub (shapeEmptyIncoming a x b) sep7 = true := by
    rw [show shapeEmptyIncoming a x b =
      (lmTok ++ a ++ ['\n'] ++ x ++ ['\n']) ++ sep7 ++ ('\n' :: (rm8 ++ b)) from by
      unfold shapeEmptyIncoming; rw [sepTok_cons]; simp]
    exact containsSub_of_parts _ _ _
  have hrm : containsSub (shapeEmptyIncoming a x b) rm8 = true := by
    rw [show shapeEmptyIncoming a x b =
      (lmTok ++ a ++ ['\n'] ++ x ++ sepTok) ++ rm8 ++ b from by
      unfold shapeEmptyIncoming; simp]
    exact containsSub_of_parts _ _ _
  simp [hasMergeConflicts, hlm, hsep, hrm]

theorem resolveFile_unresolved {s : Text} (hconf : hasMergeConflicts s = true)
    (hparse : parseConflictSections s = []) (hlm : containsSub s lmTok = true)
    (ms : Text → Text → Text) : resolveFile (resolveWith ms) s = (s, false) := by
  rw [resolveFile, if_pos hconf, resolveWith_of_parse_nil hparse, hlm]
  rfl

/-- C9: a well-formed degenerate conflict region in which one side has zero
lines — the current-side marker line immediately followed by the separator
line, or the separator line immediately followed by the incoming-side marker
line — is not matched by the block parser: parsing yields no blocks, every
strategy leaves the buffer byte-identical (so the markers remain), and the
per-file flow classifies the file as not fully resolved. -/
theorem claim_C9 (a b x y : Text) (ha0 : a ≠ []) (hb0 : b ≠ [])
    (ha : ∀ c ∈ a, c ≠ '\n' ∧ c ≠ '<' ∧ c ≠ '=')
    (hb : ∀ c ∈ b, c ≠ '\n' ∧ c ≠ '<' ∧ c ≠ '=')
    (hx : ∀ c ∈ x, c ≠ '\n' ∧ c ≠ '<' ∧ c ≠ '=')
    (hy : ∀ c ∈ y, c ≠ '\n' ∧ c ≠ '<' ∧ c ≠ '=') :
    (parseConflictSections (shapeEmptyCurrent a y b) = [] ∧
      resolveFile resolveProtoConflict (shapeEmptyCurrent a y b) =
        (shapeEmptyCurrent a y b, false) ∧
      resolveFile resolveGoConflict (shapeEmptyCurrent a y b) =
        (shapeEmptyCurrent a y b, false) ∧
      resolveFile resolveGenericConflict (shapeEmptyCurrent a y b) =
        (shapeEmptyCurrent a y b, false)) ∧
    (parseConflictSections (shapeEmptyIncoming a x b) = [] ∧
      resolveFile resolveProtoConflict (shapeEmptyIncoming a x b) =
        (shapeEmptyIncoming a x b, false) ∧
      resolveFile resolveGoConflict (shapeEmptyIncoming a x b) =
        (shapeEmptyIncoming a x b, false) ∧
      resolveFile resolveGenericConflict (shapeEmptyIncoming a x b) =
        (shapeEmptyIncoming a x b, false)) := by
  have hp1 : parseConflictSections (shapeEmptyCurrent a y b) = [] :=
    parse_shapeEmptyCurrent ha0 (fun c hc => (ha c hc).1) (fun c hc => (ha c hc).2.1)
      (fun c hc => (hy c hc).2.2) (fun c hc => (hy c hc).2.1)
      (fun c hc => (hb c hc).2.2) (fun c hc => (hb c hc).2.1)
  have hp2 : parseConflictSections (shapeEmptyIncoming a x b) = [] :=
    parse_shapeEmptyIncoming ha0 (fun c hc => (ha c hc).1) (fun c hc => (ha c hc).2.1)
      (fun c hc => (hx c hc).1) (fun c hc => (hx c hc).2.1)
      (fun c hc => (hb c hc).1) (fun c hc => (hb c hc).2.1)
  have hlm1 : containsSub (shapeEmptyCurrent a y b) lmTok = true :=
    containsSub_of_parts [] lmTok _
  have hlm2 : containsSub (shapeEmptyIncoming a x b) lmTok = true :=
    containsSub_of_parts [] lmTok _
  exact ⟨⟨hp1,
      resolveFile_unresolved (hasConf_shapeEmptyCurrent a y b) hp1 hlm1 mergeProtoSection,
      resolveFile_unresolved (hasConf_shapeEmptyCurrent a y b) hp1 hlm1 mergeGoSection,
      resolveFile_unresolved (hasConf_shapeEmptyCurrent a y b) hp1 hlm1 mergeGenericSection⟩,
    ⟨hp2,
      resolveFile_unresolved (hasConf_shapeEmptyIncoming a x b) hp2 hlm2 mergeProtoSection,
      resolveFile_unresolved (hasConf_shapeEmptyIncoming a x b) hp2 hlm2 mergeGoSection,
      resolveFile_unresolved (hasConf_shapeEmptyIncoming a x b) hp2 hlm2 mergeGenericSection⟩⟩

/-- C9 witness: the two degenerate regions with labels `HEAD` / `branch` and
one-line contents. -/
theorem claim_C9_witness :
    ((("HEAD").data ≠ ([] : Text) ∧ ("branch").data ≠ ([] : Text)) ∧
      (∀ c ∈ (("HEAD").data : Text), c ≠ '\n' ∧ c ≠ '<' ∧ c ≠ '=') ∧
      (∀ c ∈ (("branch").data : Text), c ≠ '\n' ∧ c ≠ '<' ∧ c ≠ '=') ∧
      (∀ c ∈ (("foo").data : Text), c ≠ '\n' ∧ c ≠ '<' ∧ c ≠ '=') ∧
      (∀ c ∈ (("bar").data : Text), c ≠ '\n' ∧ c ≠ '<' ∧ c ≠ '=')) ∧
    (parseConflictSections (shapeEmptyCurrent (("HEAD").data) (("bar").data)
        (("branch").data)) = [] ∧
      resolveFile resolveProtoConflict (shapeEmptyCurrent (("HEAD").data) (("bar").data)
        (("branch").data)) =
        (shapeEmptyCurrent (("HEAD").data) (("bar").data) (("branch").data), false) ∧
      resolveFile resolveGoConflict (shapeEmptyCurrent (("HEAD").data) (("bar").data)
        (("branch").data)) =
        (shapeEmptyCurrent (("HEAD").data) (("bar").data) (("branch").data), false) ∧
      resolveFile resolveGenericConflict (shapeEmptyCurrent (("HEAD").data) (("bar").data)
        (("branch").data)) =
        (shapeEmptyCurrent (("HEAD").data) (("bar").data) (("branch").data), false)) ∧
    (parseConflictSections (shapeEmptyIncoming (("HEAD").data) (("foo").data)
        (("branch").data)) = [] ∧
      resolveFile resolveProtoConflict (shapeEmptyIncoming (("HEAD").data) (("foo").data)
        (("branch").data)) =
        (shapeEmptyIncoming (("HEAD").data) (("foo").data) (("branch").data), false) ∧
      resolveFile resolveGoConflict (shapeEmptyIncoming (("HEAD").data) (("foo").data)
        (("branch").data)) =
        (shapeEmptyIncoming (("HEAD").data) (("foo").data) (("branch").data), false) ∧
      resolveFile resolveGenericConflict (shapeEmptyIncoming (("HEAD").data) (("foo").data)
        (("branch").data)) =
        (shapeEmptyIncoming (("HEAD").data) (("foo").data) (("branch").data), false)) := by
  refine ⟨⟨⟨by decide, by decide⟩, by decide, by decide, by decide, by decide⟩, ?_, ?_⟩
  · exact (claim_C9 (("HEAD").data) (("branch").data) (("foo").data) (("bar").data)
      (by decide) (by decide) (by decide) (by decide) (by decide) (by decide)).1
  · exact (claim_C9 (("HEAD").data) (("branch").data) (("foo").data) (("bar").data)
      (by decide) (by decide) (by decide) (by decide) (by decide) (by decide)).2

end CR
